import Mathlib

/-!
Verification development for the SaytSearchEngine q-gram index
(`qgram_index.py`).  Strings are modelled as `List Char`; Python's
`str.lower`/`str.isalnum` are modelled by Lean's ASCII `Char.toLower` /
`Char.isAlphanum`; Python machine integers are `Int`/`Nat` (Python ints are
unbounded, so no wrap-around modelling is needed).  The mutable
`QGramIndex` object is modelled as a state record `St` threaded through the
operations; the auto-vivifying `defaultdict(list)` is modelled by `ddGet`,
which returns both the value read and the (possibly key-extended) mapping.
-/

namespace QGramIndex

/-- Embeds `QGramIndex.normalize` (qgram_index.py lines 88-100):
`word.lower()` then keep only alphanumeric characters.  Python's `lower` /
`isalnum` are Unicode-aware; the embedding uses Lean's ASCII versions,
which agree with Python on ASCII text. -/
def normalize (word : List Char) : List Char :=
  (word.map Char.toLower).filter Char.isAlphanum

/-- Embeds `self.padding = "$" * (q - 1)` (qgram_index.py line 34). -/
def padding (q : Nat) : List Char :=
  List.replicate (q - 1) '$'

/-- All length-`q` windows of `w`: `[w[i: i+q] for i in range(len(w) - q + 1)]`
(qgram_index.py line 113).  The guard `w.length < q` reproduces Python's
`range` of a negative number being empty, which truncated `Nat` subtraction
would otherwise get wrong. -/
def windows (q : Nat) (w : List Char) : List (List Char) :=
  if w.length < q then []
  else (List.range (w.length - q + 1)).map (fun i => (w.drop i).take q)

/-- Embeds `QGramIndex.compute_qgrams` (qgram_index.py lines 102-113):
windows of the left-padded normalized word. -/
def compute_qgrams (q : Nat) (word : List Char) : List (List Char) :=
  windows q (padding q ++ normalize word)

/-- Adds frequency `f` under key `t` in an insertion-ordered association
list, appending a fresh entry when the key is absent; models one iteration
of `result[tID] += frequency` on a `defaultdict(int)`
(qgram_index.py line 139). -/
def bump : List (Nat × Nat) → Nat → Nat → List (Nat × Nat)
  | [], t, f => [(t, f)]
  | (k, c) :: r, t, f => if k = t then (k, c + f) :: r else (k, c) :: bump r t f

/-- The frequency-accumulation loop of `merge_lists`
(qgram_index.py lines 135-139). -/
def accumFreq (tmp : List (Nat × Nat)) : List (Nat × Nat) :=
  tmp.foldl (fun r p => bump r p.1 p.2) []

/-- Python's tuple comparison `(id, freq) <= (id', freq')`, used by
`sorted(result.items())`. -/
def pairLE (a b : Nat × Nat) : Bool :=
  a.1 < b.1 || (a.1 = b.1 && a.2 ≤ b.2)

/-- Inserts `x` into `l` after every element `y` with `le y x`; the
insertion step of a stable insertion sort. -/
def insortLE {α : Type} (le : α → α → Bool) (x : α) : List α → List α
  | [] => [x]
  | y :: ys => if le y x then y :: insortLE le x ys else x :: y :: ys

/-- Stable insertion sort.  Python's `sorted` is a stable sort, and the
output of a stable sort is uniquely determined by the input and the
(total, transitive) order, so this computes exactly what `sorted` does;
structural recursion keeps it kernel-evaluable. -/
def isortLE {α : Type} (le : α → α → Bool) (l : List α) : List α :=
  l.foldl (fun acc x => insortLE le x acc) []

/-- Embeds `QGramIndex.merge_lists` (qgram_index.py lines 115-140):
concatenate the fragments, accumulate frequencies per entity id, sort the
resulting pairs (`sorted(result.items())`). -/
def merge_lists (lists : List (List (Nat × Nat))) : List (Nat × Nat) :=
  isortLE pairLE (accumFreq lists.flatten)

/-- Levenshtein edit distance by the textbook recursion, with an explicit
structural fuel so that the kernel can evaluate it (`ed` below instantiates
the fuel); auxiliary to the spec-modelled `ped` (the glossary of the spec
defines PED via single-character insertions, deletions and
substitutions). -/
def edFuel : Nat → List Char → List Char → Nat
  | _, [], ys => ys.length
  | _, _ :: xs, [] => xs.length + 1
  | 0, _, _ => 0
  | n + 1, a :: xs, b :: ys =>
    if a = b then edFuel n xs ys
    else 1 + min (edFuel n xs (b :: ys)) (min (edFuel n (a :: xs) ys) (edFuel n xs ys))

/-- Levenshtein edit distance (the fuel `x.length + y.length` always
suffices). -/
def ed (x y : List Char) : Nat :=
  edFuel (x.length + y.length) x y

/-- Modelled from the spec: the true prefix edit distance, "minimum number
of single-character insertions/deletions/substitutions needed to transform
a query string into a prefix of a target string".  The `ped` function the
source imports comes from the `ped_c` module, which is not under `src/`. -/
def pedTrue (x y : List Char) : Nat :=
  ((List.range (y.length + 1)).map (fun k => ed x (y.take k))).foldr min x.length

/-- Modelled from the spec: `computeBoundedPrefixEditDistance(a, b, maxDistance)`;
the computation is bounded by `delta` ("an implementation may early-terminate
the distance computation once it is certain the true distance exceeds
`delta`"), so the result is the true PED capped at `delta + 1`. -/
def pedBounded (x y : List Char) (δ : Int) : Int :=
  min (pedTrue x y : Int) (δ + 1)

/-- One indexed entity, as stored in `self.entities[entity_id]`
(qgram_index.py lines 70-79).  `score` keeps the raw textual field; the
source converts it with `int(...)` only inside `find_matches`. -/
structure Entity where
  name : List Char
  n_name : List Char
  score : List Char
  desc : List Char
  url : List Char
  wikiID : List Char
  syn : List (List Char)
  img : List Char
deriving DecidableEq

/-- The mutable state of a `QGramIndex`: the entity-id counter, the
`entities` store and the `inverted_lists` mapping, the latter as an
insertion-ordered association list (Python dicts preserve insertion
order). -/
structure St where
  eid : Nat
  entities : List (Nat × Entity)
  inverted_lists : List (List Char × List (Nat × Nat))
deriving DecidableEq

/-- First value bound to key `g`, with the `defaultdict` default `[]` for a
missing key. -/
def lookupD : List (List Char × List (Nat × Nat)) → List Char → List (Nat × Nat)
  | [], _ => []
  | (k, v) :: m, g => if k = g then v else lookupD m g

/-- Key membership in the association list. -/
def hasKey : List (List Char × List (Nat × Nat)) → List Char → Bool
  | [], _ => false
  | (k, _) :: m, g => k = g || hasKey m g

/-- Reading `self.inverted_lists[g]` on a `defaultdict(list)`: returns the
stored list, or inserts and returns `[]` when the key is missing
(auto-vivification appends the new key in insertion order). -/
def ddGet (m : List (List Char × List (Nat × Nat))) (g : List Char) :
    List (Nat × Nat) × List (List Char × List (Nat × Nat)) :=
  if hasKey m g then (lookupD m g, m) else ([], m ++ [(g, [])])

/-- Overwrites the value stored under key `g` (appending when absent);
models in-place mutation of the list object held by the dict. -/
def setKey : List (List Char × List (Nat × Nat)) → List Char → List (Nat × Nat) →
    List (List Char × List (Nat × Nat))
  | [], g, v => [(g, v)]
  | (k, w) :: m, g, v => if k = g then (k, v) :: m else (k, w) :: setKey m g v

/-- The inverted-list update of the build loop (qgram_index.py lines
81-87) on one list: append `(e, 1)` when the list is empty or ends with a
different entity id, otherwise increment the trailing frequency. -/
def updIL (v : List (Nat × Nat)) (e : Nat) : List (Nat × Nat) :=
  match v.getLast? with
  | none => v ++ [(e, 1)]
  | some (t, c) => if t ≠ e then v ++ [(e, 1)] else v.dropLast ++ [(t, c + 1)]

/-- Embeds the inverted-list update for one q-gram of entity `e`
(qgram_index.py lines 80-87), reading through the `defaultdict` and
writing the updated list back. -/
def insertGram (m : List (List Char × List (Nat × Nat))) (e : Nat) (g : List Char) :
    List (List Char × List (Nat × Nat)) :=
  let p := ddGet m g
  setKey p.2 g (updIL p.1 e)

/-- Reads the inverted list of every q-gram in order, threading the
`defaultdict` state (qgram_index.py line 167 evaluates the generator
`self.inverted_lists[g] for g in q_grams` inside `merge_lists`). -/
def fetchLists : List (List Char × List (Nat × Nat)) → List (List Char) →
    List (List (Nat × Nat)) × List (List Char × List (Nat × Nat))
  | m, [] => ([], m)
  | m, g :: gs =>
    let p := ddGet m g
    let r := fetchLists p.2 gs
    (p.1 :: r.1, r.2)

/-- Python whitespace for `str.strip()`. -/
def isPySpace (c : Char) : Bool :=
  c = ' ' || c = '\t' || c = '\n' || c = '\r' || c = '\x0b' || c = '\x0c'

/-- Embeds `str.strip()` with no argument. -/
def pyStrip (s : List Char) : List Char :=
  ((s.dropWhile isPySpace).reverse.dropWhile isPySpace).reverse

/-- Embeds `line.split("\t", fuel)`: split on tabs, at most `fuel` splits,
accumulating the current field in reverse (structural recursion on the
string). -/
def splitTabAux (fuel : Nat) (acc : List Char) : List Char → List (List Char)
  | [] => [acc.reverse]
  | c :: cs =>
    match fuel with
    | 0 => [acc.reverse ++ c :: cs]
    | fuel' + 1 =>
      if c = '\t' then acc.reverse :: splitTabAux fuel' [] cs
      else splitTabAux (fuel' + 1) (c :: acc) cs

/-- Embeds `str.split(sep)` with no split limit (used for `synonyms.split(';')`). -/
def splitAllAux (sep : Char) : List Char → List Char → List (List Char)
  | acc, [] => [acc.reverse]
  | acc, c :: cs =>
    if c = sep then acc.reverse :: splitAllAux sep [] cs
    else splitAllAux sep (c :: acc) cs

/-- Value of the digit string `s`, `int(s)` on canonical input.  The source
applies `int` to the score field inside `find_matches`; no claim depends on
the numeric value, and malformed score text (where Python would raise) is
out of the modelled scope. -/
def digitsToNat (s : List Char) : Nat :=
  s.foldl (fun a c => 10 * a + (c.toNat - 48)) 0

/-- Python's `int(...)` on an optionally-negated digit string. -/
def pyInt (s : List Char) : Int :=
  match s with
  | '-' :: rest => -(digitsToNat rest : Int)
  | _ => (digitsToNat s : Int)

/-- Build abort conditions: a record with the wrong field count
(`MalformedRecordError` in the spec; `ValueError` from tuple unpacking in
the source), or an input with no header line for `next(file)` to consume. -/
inductive BuildError where
  | malformedRecord
  | emptyInput
deriving DecidableEq

/-- Embeds one iteration of the record loop of
`QGramIndex.build_from_file` (qgram_index.py lines 64-87): skip blank
lines; split into exactly 7 tab-separated fields or fail; otherwise assign
the next entity id, store the entity and index its q-grams. -/
def buildLine (q : Nat) (st : St) (line : List Char) : Except BuildError St :=
  if pyStrip line = [] then .ok st
  else
    match splitTabAux 7 [] line with
    | [entity_name, score, description, wiki_url, wiki_ID, synonyms, image_url] =>
      let e := st.eid + 1
      let ent : Entity :=
        ⟨entity_name, normalize entity_name, score, description, wiki_url, wiki_ID,
          splitAllAux ';' [] (pyStrip synonyms), image_url⟩
      .ok ⟨e, st.entities ++ [(e, ent)],
        (compute_qgrams q (normalize entity_name)).foldl (fun m g => insertGram m e g)
          st.inverted_lists⟩
    | _ => .error .malformedRecord

/-- The record loop of `build_from_file`, starting from the empty index
`QGramIndex(q)`. -/
def build_from_records (q : Nat) (records : List (List Char)) : Except BuildError St :=
  records.foldlM (buildLine q) ⟨0, [], []⟩

/-- Embeds `QGramIndex.build_from_file` (qgram_index.py lines 37-87): skip
the header line (`next(file)` raises on an empty file), then run the
record loop. -/
def build_from_file (q : Nat) (lines : List (List Char)) : Except BuildError St :=
  match lines with
  | [] => .error .emptyInput
  | _ :: records => build_from_records q records

/-- `self.entities[t]` as an optional lookup (ids are unique after a build). -/
def entLookup : List (Nat × Entity) → Nat → Option Entity
  | [], _ => none
  | (k, e) :: r, t => if k = t then some e else entLookup r t

/-- The `n_name` field of entity `t` (`self.entities[tID]["n_name"]`). -/
def entity_n_name (st : St) (t : Nat) : List Char :=
  ((entLookup st.entities t).map Entity.n_name).getD []

/-- The raw `score` field of entity `t` (`self.entities[tID]["score"]`). -/
def entity_score (st : St) (t : Nat) : List Char :=
  ((entLookup st.entities t).map Entity.score).getD []

/-- Embeds `QGramIndex.find_matches` (qgram_index.py lines 142-174):
compute the prefix's q-grams, fetch and merge their inverted lists, prune
candidates with fewer than `len(prefix) - q*delta` merged q-gram
occurrences, verify survivors with the bounded PED.  Returns the matches
together with the updated state (the `defaultdict` reads may add keys). -/
def find_matches (q : Nat) (st : St) (x : List Char) (δ : Int) :
    List (Nat × Int × Int) × St :=
  let q_grams := compute_qgrams q x
  let fl := fetchLists st.inverted_lists q_grams
  let l := merge_lists fl.1
  let l2 := l.filter (fun p => (x.length : Int) - (q : Int) * δ ≤ (p.2 : Int))
  (l2.filterMap (fun p =>
      if pedBounded x (entity_n_name st p.1) δ ≤ δ then
        some (p.1, pedBounded x (entity_n_name st p.1) δ, pyInt (entity_score st p.1))
      else none),
    { st with inverted_lists := fl.2 })

/-- The sort key order `(x[1], -x[2])` of `rank_matches` as a boolean
total preorder: distance ascending, then score descending. -/
def rankLE (a b : Nat × Int × Int) : Bool :=
  a.2.1 < b.2.1 || (a.2.1 = b.2.1 && b.2.2 ≤ a.2.2)

/-- Embeds `QGramIndex.rank_matches` (qgram_index.py lines 176-190):
`sorted(matches, key=lambda x: (x[1], -x[2]))` as the stable sort by
`rankLE`. -/
def rank_matches (ms : List (Nat × Int × Int)) : List (Nat × Int × Int) :=
  isortLE rankLE ms

/-- Total frequency recorded for entity `t` in the fragment `l` (the
specification's per-id sum). -/
def freqSum (t : Nat) (l : List (Nat × Nat)) : Nat :=
  ((l.filter (fun p => p.1 = t)).map Prod.snd).sum

/-- The multiset of q-grams of the left-padded string `s`. -/
def gramsM (q : Nat) (s : List Char) : Multiset (List Char) :=
  (windows q (padding q ++ s) : Multiset (List Char))

/-- One single-character edit: deletion, insertion or substitution. -/
inductive EditStep : List Char → List Char → Prop
  | del (u v : List Char) (a : Char) : EditStep (u ++ a :: v) (u ++ v)
  | ins (u v : List Char) (a : Char) : EditStep (u ++ v) (u ++ a :: v)
  | sub (u v : List Char) (a b : Char) : EditStep (u ++ a :: v) (u ++ b :: v)

/-- `Reach n x y`: `y` is obtainable from `x` by at most `n` single edits. -/
inductive Reach : Nat → List Char → List Char → Prop
  | refl (n : Nat) (x : List Char) : Reach n x x
  | step {n : Nat} {x y z : List Char} : EditStep x y → Reach n y z → Reach (n + 1) x z

/-- The inverted-list invariant of the specification: entity ids strictly
increasing, every frequency at least 1. -/
def goodIL (l : List (Nat × Nat)) : Prop :=
  l.Pairwise (fun a b => a.1 < b.1) ∧ ∀ p ∈ l, 1 ≤ p.2

/-- `[(e, c)]` when `c > 0`, nothing when `c = 0`: the contribution of one
entity to one inverted list. -/
def optEntry (e c : Nat) : List (Nat × Nat) :=
  if c = 0 then [] else [(e, c)]

/-- The inverted list a correct build produces for q-gram `g`: one entry
per entity whose normalized name contains `g`, in entity order, carrying
the occurrence count. -/
def entriesFor (q : Nat) (ents : List (Nat × Entity)) (g : List Char) :
    List (Nat × Nat) :=
  ents.flatMap (fun pe => optEntry pe.1 ((compute_qgrams q pe.2.n_name).count g))

/-- The build-state characterization: entity ids are `1..eid` in order,
stored normalized names are `normalize`-fixed, and every inverted list is
exactly `entriesFor` its q-gram. -/
def StInv (q : Nat) (st : St) : Prop :=
  st.entities.map Prod.fst = List.range' 1 st.eid ∧
  (∀ pe ∈ st.entities, normalize pe.2.n_name = pe.2.n_name) ∧
  ∀ g, lookupD st.inverted_lists g = entriesFor q st.entities g

/-- The merged common-q-gram count `find_matches` computes for a candidate:
the sum, over the q-gram occurrences of `x`, of the occurrence count of
that q-gram in `y`. -/
def commCount (q : Nat) (x y : List Char) : Nat :=
  ((compute_qgrams q x).map (fun g => (compute_qgrams q y).count g)).sum

/-- C2 counterexample input: a one-entity corpus (header plus one
7-field record for the entity "frei"). -/
def c2Lines : List (List Char) :=
  ["header".data, "frei\t3\td\tu\t1\ts\ti".data]

/-- The index built from `c2Lines`. -/
def c2St : St := (build_from_file 3 c2Lines).toOption.getD ⟨0, [], []⟩

/-- C1 counterexample input: a one-entity corpus whose entity has
normalized name "b". -/
def c1Lines : List (List Char) :=
  ["header".data, "b\t1\td\tu\t1\ts\ti".data]

/-- The index built from `c1Lines`. -/
def c1St : St := (build_from_file 3 c1Lines).toOption.getD ⟨0, [], []⟩

/-- C7 witness input: the record lines of the doctest corpus. -/
def c7Lines : List (List Char) :=
  ["frei\t3\td\tu\t1\ts\ti".data, "brei\t2\td\tu\t2\ts\ti".data]

/-- The build state reached from `c7Lines`. -/
def c7St : St := (build_from_records 3 c7Lines).toOption.getD ⟨0, [], []⟩

end QGramIndex

namespace QGramIndex

/-! ### Lemmas about `normalize` -/

theorem toNat_ofNat_of_lt {n : Nat} (h : n < 55296) : (Char.ofNat n).toNat = n := by
  have hv : n.isValidChar := Or.inl h
  rw [Char.ofNat, dif_pos hv]
  rfl

theorem toLower_toLower (c : Char) : Char.toLower (Char.toLower c) = Char.toLower c := by
  by_cases h : c.toNat ≥ 65 ∧ c.toNat ≤ 90
  · have h1 : Char.toLower c = Char.ofNat (c.toNat + 32) := by
      rw [Char.toLower, if_pos h]
    have h2 : (Char.toLower c).toNat = c.toNat + 32 := by
      rw [h1]; exact toNat_ofNat_of_lt (by omega)
    rw [Char.toLower, if_neg (by omega)]
  · have h1 : Char.toLower c = c := by
      rw [Char.toLower, if_neg h]
    rw [h1, h1]

theorem normalize_idem (x : List Char) : normalize (normalize x) = normalize x := by
  unfold normalize
  have h2 : ((x.map Char.toLower).filter Char.isAlphanum).map Char.toLower
      = (x.map Char.toLower).filter Char.isAlphanum := by
    have h3 : ∀ c ∈ (x.map Char.toLower).filter Char.isAlphanum, Char.toLower c = c := by
      intro c hc
      rcases List.mem_map.mp (List.mem_of_mem_filter hc) with ⟨a, -, rfl⟩
      exact toLower_toLower a
    calc ((x.map Char.toLower).filter Char.isAlphanum).map Char.toLower
        = ((x.map Char.toLower).filter Char.isAlphanum).map id := List.map_congr_left h3
      _ = _ := List.map_id _
  rw [h2, List.filter_filter]
  simp

end QGramIndex

namespace QGramIndex

/-- C8: `normalize` lowercases its input and removes every character that
is not alphanumeric (it is a pure Lean function, hence side-effect free),
and it is idempotent; in particular
`normalize "Frei, burG !?!" = normalize "freiburg" = "freiburg"`. -/
theorem claim_C8 :
    (∀ x : List Char, normalize (normalize x) = normalize x) ∧
    normalize ("Frei, burG !?!".data) = "freiburg".data ∧
    normalize ("freiburg".data) = "freiburg".data :=
  ⟨normalize_idem, by decide, by decide⟩

/-- C3 counterexample: for `q = 2 > 1` and a text whose normalization is
empty, `compute_qgrams` returns `[]`, not the single all-sentinel gram
`"$$"` the claim asserts: the left padding has only `q - 1` sentinel
characters, too short for any length-`q` window. -/
theorem claim_C3_counterexample :
    compute_qgrams 2 [] = [] ∧ compute_qgrams 2 [] ≠ [['$', '$']] := by
  constructor
  · decide
  · decide

/-- C3 as amended: for every `q ≥ 1` and every text whose normalization is
the empty string, `compute_qgrams` returns the empty sequence (also when
`q > 1`, where the claim expected one all-sentinel gram). -/
theorem claim_C3 (q : Nat) (text : List Char) (hq : 1 ≤ q)
    (h : normalize text = []) : compute_qgrams q text = [] := by
  unfold compute_qgrams
  rw [h, List.append_nil]
  unfold windows
  have hlen : (padding q).length < q := by
    simp only [padding, List.length_replicate]
    omega
  rw [if_pos hlen]

/-- Witness for `claim_C3` at `q = 3`, `text = "!?"`. -/
theorem claim_C3_witness :
    1 ≤ 3 ∧ normalize ("!?".data) = [] ∧ compute_qgrams 3 ("!?".data) = [] :=
  ⟨by decide, by decide, claim_C3 3 ("!?".data) (by decide) (by decide)⟩

/-- C10: `compute_qgrams` normalizes its argument internally and
`normalize` is idempotent, so for every `q ≥ 1` the q-grams of a raw text
equal the q-grams of its normalization. -/
theorem claim_C10 (q : Nat) (x : List Char) (hq : 1 ≤ q) :
    compute_qgrams q x = compute_qgrams q (normalize x) := by
  unfold compute_qgrams
  rw [normalize_idem]

/-- Witness for `claim_C10` at `q = 3`, `x = "Frei, burG !?!"`. -/
theorem claim_C10_witness :
    1 ≤ 3 ∧
    compute_qgrams 3 ("Frei, burG !?!".data) =
      compute_qgrams 3 (normalize ("Frei, burG !?!".data)) :=
  ⟨by decide, claim_C10 3 ("Frei, burG !?!".data) (by decide)⟩

end QGramIndex

namespace QGramIndex

/-! ### Lemmas about `merge_lists` -/

theorem freqSum_nil (t : Nat) : freqSum t [] = 0 := rfl

theorem freqSum_cons (p : Nat × Nat) (l : List (Nat × Nat)) (t : Nat) :
    freqSum t (p :: l) = (if p.1 = t then p.2 else 0) + freqSum t l := by
  by_cases h : p.1 = t <;> simp [freqSum, List.filter_cons, h]

theorem freqSum_append (l₁ l₂ : List (Nat × Nat)) (t : Nat) :
    freqSum t (l₁ ++ l₂) = freqSum t l₁ + freqSum t l₂ := by
  simp [freqSum, List.filter_append]

theorem freqSum_eq_zero (t : Nat) {l : List (Nat × Nat)}
    (h : t ∉ l.map Prod.fst) : freqSum t l = 0 := by
  induction l with
  | nil => rfl
  | cons p l ih =>
    simp only [List.map_cons, List.mem_cons] at h
    push_neg at h
    rw [freqSum_cons, if_neg (Ne.symm h.1), ih h.2]

theorem bump_freqSum (r : List (Nat × Nat)) (t f t' : Nat) :
    freqSum t' (bump r t f) = freqSum t' r + (if t = t' then f else 0) := by
  induction r with
  | nil =>
    by_cases h : t = t' <;> simp [bump, freqSum_cons, freqSum_nil, h]
  | cons p r ih =>
    rcases p with ⟨k, c⟩
    by_cases hk : k = t
    · subst hk
      rw [bump, if_pos rfl, freqSum_cons, freqSum_cons]
      by_cases h : k = t' <;> simp [h] <;> omega
    · rw [bump, if_neg hk, freqSum_cons, ih, freqSum_cons]
      omega

theorem bump_mem_keys (r : List (Nat × Nat)) (t f t' : Nat) :
    t' ∈ (bump r t f).map Prod.fst ↔ t' ∈ r.map Prod.fst ∨ t' = t := by
  induction r with
  | nil => simp [bump]
  | cons p r ih =>
    rcases p with ⟨k, c⟩
    by_cases hk : k = t
    · subst hk
      simp only [bump, if_pos, List.map_cons, List.mem_cons]
      tauto
    · rw [bump, if_neg hk]
      simp only [List.map_cons, List.mem_cons, ih]
      tauto

theorem bump_nodup (r : List (Nat × Nat)) (t f : Nat)
    (h : (r.map Prod.fst).Nodup) : ((bump r t f).map Prod.fst).Nodup := by
  induction r with
  | nil => simp [bump]
  | cons p r ih =>
    rcases p with ⟨k, c⟩
    simp only [List.map_cons, List.nodup_cons] at h
    by_cases hk : k = t
    · subst hk
      simpa [bump, List.nodup_cons] using h
    · rw [bump, if_neg hk]
      simp only [List.map_cons, List.nodup_cons]
      refine ⟨fun hmem => ?_, ih h.2⟩
      rcases (bump_mem_keys r t f k).mp hmem with h1 | h1
      · exact h.1 h1
      · exact hk h1

theorem foldl_bump_freqSum (tmp : List (Nat × Nat)) :
    ∀ (r : List (Nat × Nat)) (t' : Nat),
      freqSum t' (tmp.foldl (fun a p => bump a p.1 p.2) r) =
        freqSum t' r + freqSum t' tmp := by
  induction tmp with
  | nil => intro r t'; simp [freqSum_nil]
  | cons p tmp ih =>
    intro r t'
    rw [List.foldl_cons, ih, bump_freqSum, freqSum_cons]
    omega

theorem foldl_bump_mem (tmp : List (Nat × Nat)) :
    ∀ (r : List (Nat × Nat)) (t' : Nat),
      t' ∈ ((tmp.foldl (fun a p => bump a p.1 p.2) r).map Prod.fst) ↔
        t' ∈ r.map Prod.fst ∨ t' ∈ tmp.map Prod.fst := by
  induction tmp with
  | nil => intro r t'; simp
  | cons p tmp ih =>
    intro r t'
    rw [List.foldl_cons, ih, bump_mem_keys]
    simp only [List.map_cons, List.mem_cons]
    tauto

theorem foldl_bump_nodup (tmp : List (Nat × Nat)) :
    ∀ (r : List (Nat × Nat)), (r.map Prod.fst).Nodup →
      ((tmp.foldl (fun a p => bump a p.1 p.2) r).map Prod.fst).Nodup := by
  induction tmp with
  | nil => intro r h; exact h
  | cons p tmp ih =>
    intro r h
    exact ih _ (bump_nodup r p.1 p.2 h)

theorem accumFreq_freqSum (tmp : List (Nat × Nat)) (t : Nat) :
    freqSum t (accumFreq tmp) = freqSum t tmp := by
  rw [accumFreq, foldl_bump_freqSum, freqSum_nil, Nat.zero_add]

theorem accumFreq_mem (tmp : List (Nat × Nat)) (t : Nat) :
    t ∈ (accumFreq tmp).map Prod.fst ↔ t ∈ tmp.map Prod.fst := by
  rw [accumFreq, foldl_bump_mem]
  simp

theorem accumFreq_nodup (tmp : List (Nat × Nat)) :
    ((accumFreq tmp).map Prod.fst).Nodup :=
  foldl_bump_nodup tmp [] (by simp)

theorem freqSum_of_mem_nodup :
    ∀ {l : List (Nat × Nat)}, (l.map Prod.fst).Nodup →
      ∀ {t c : Nat}, (t, c) ∈ l → freqSum t l = c := by
  intro l
  induction l with
  | nil => intro _ t c h; cases h
  | cons p l ih =>
    intro hnd t c hmem
    simp only [List.map_cons, List.nodup_cons] at hnd
    rcases List.mem_cons.mp hmem with h | h
    · subst h
      rw [freqSum_cons, if_pos rfl, freqSum_eq_zero t hnd.1]
      simp
    · have hpt : p.1 ≠ t := by
        intro hp
        exact hnd.1 (hp ▸ List.mem_map_of_mem Prod.fst h)
      rw [freqSum_cons, if_neg hpt, ih hnd.2 h, Nat.zero_add]

theorem pairLE_trans (a b c : Nat × Nat) : pairLE a b → pairLE b c → pairLE a c := by
  simp only [pairLE, Bool.or_eq_true, Bool.and_eq_true, decide_eq_true_eq]
  omega

theorem pairLE_total (a b : Nat × Nat) : pairLE a b || pairLE b a := by
  simp only [pairLE, Bool.or_eq_true, Bool.and_eq_true, decide_eq_true_eq]
  omega

/-! ### The stable insertion sort -/

theorem insort_perm {α : Type} (le : α → α → Bool) (x : α) :
    ∀ (l : List α), List.Perm (insortLE le x l) (x :: l) := by
  intro l
  induction l with
  | nil => exact List.Perm.refl _
  | cons y ys ih =>
    rw [insortLE]
    by_cases h : le y x
    · rw [if_pos h]
      exact (ih.cons y).trans (List.Perm.swap x y ys)
    · rw [if_neg h]

theorem mem_insort {α : Type} (le : α → α → Bool) (x b : α) (l : List α) :
    b ∈ insortLE le x l ↔ b = x ∨ b ∈ l := by
  rw [(insort_perm le x l).mem_iff, List.mem_cons]

theorem insort_pairwise {α : Type} (le : α → α → Bool)
    (trans : ∀ a b c, le a b → le b c → le a c)
    (total : ∀ a b, le a b || le b a) (x : α) :
    ∀ {l : List α}, l.Pairwise (fun a b => le a b) →
      (insortLE le x l).Pairwise (fun a b => le a b) := by
  intro l
  induction l with
  | nil => intro _; simp [insortLE]
  | cons y ys ih =>
    intro h
    rcases List.pairwise_cons.mp h with ⟨h1, h2⟩
    rw [insortLE]
    by_cases hyx : le y x
    · rw [if_pos hyx]
      refine List.pairwise_cons.mpr ⟨?_, ih h2⟩
      intro b hb
      rcases (mem_insort le x b ys).mp hb with rfl | hb
      · exact hyx
      · exact h1 b hb
    · rw [if_neg hyx]
      have hxy : le x y := by
        rcases Bool.or_eq_true _ _ |>.mp (total y x) with h' | h'
        · exact absurd h' hyx
        · exact h'
      refine List.pairwise_cons.mpr ⟨?_, h⟩
      intro b hb
      rcases List.mem_cons.mp hb with rfl | hb
      · exact hxy
      · exact trans x y b hxy (h1 b hb)

theorem isort_go_perm {α : Type} (le : α → α → Bool) :
    ∀ (l acc : List α),
      List.Perm (l.foldl (fun a x => insortLE le x a) acc) (acc ++ l) := by
  intro l
  induction l with
  | nil => intro acc; simp
  | cons x l ih =>
    intro acc
    rw [List.foldl_cons]
    refine (ih (insortLE le x acc)).trans ?_
    refine (((insort_perm le x acc).append_right l).trans ?_)
    exact (List.perm_middle).symm

theorem isort_go_pairwise {α : Type} (le : α → α → Bool)
    (trans : ∀ a b c, le a b → le b c → le a c)
    (total : ∀ a b, le a b || le b a) :
    ∀ (l acc : List α), acc.Pairwise (fun a b => le a b) →
      (l.foldl (fun a x => insortLE le x a) acc).Pairwise (fun a b => le a b) := by
  intro l
  induction l with
  | nil => intro acc h; exact h
  | cons x l ih =>
    intro acc h
    exact ih _ (insort_pairwise le trans total x h)

theorem isort_perm {α : Type} (le : α → α → Bool) (l : List α) :
    List.Perm (isortLE le l) l := by
  simpa using isort_go_perm le l []

theorem isort_pairwise {α : Type} (le : α → α → Bool)
    (trans : ∀ a b c, le a b → le b c → le a c)
    (total : ∀ a b, le a b || le b a) (l : List α) :
    (isortLE le l).Pairwise (fun a b => le a b) :=
  isort_go_pairwise le trans total l [] (List.Pairwise.nil)

theorem insort_filter_pos {α : Type} (le : α → α → Bool) (p : α → Bool)
    (trans : ∀ a b c, le a b → le b c → le a c) (x : α)
    (hpx : p x = true) (h : ∀ b, p b = true → le b x) :
    ∀ {l : List α}, l.Pairwise (fun a b => le a b) →
      (insortLE le x l).filter p = l.filter p ++ [x] := by
  intro l
  induction l with
  | nil => intro _; simp [insortLE, List.filter_cons, hpx]
  | cons y ys ih =>
    intro hl
    rcases List.pairwise_cons.mp hl with ⟨h1, h2⟩
    rw [insortLE]
    by_cases hyx : le y x
    · rw [if_pos hyx, List.filter_cons, List.filter_cons]
      by_cases hpy : p y
      · rw [if_pos hpy, if_pos hpy, ih h2, List.cons_append]
      · rw [if_neg hpy, if_neg hpy, ih h2]
    · rw [if_neg hyx]
      have hnone : (y :: ys).filter p = [] := by
        rw [List.filter_eq_nil_iff]
        intro b hb hpb
        rcases List.mem_cons.mp hb with rfl | hb
        · exact hyx (h b hpb)
        · exact hyx (trans y b x (h1 b hb) (h b hpb))
      rw [List.filter_cons, if_pos hpx, hnone]
      rfl

theorem insort_filter_neg {α : Type} (le : α → α → Bool) (p : α → Bool) (x : α)
    (hpx : p x = false) :
    ∀ (l : List α), (insortLE le x l).filter p = l.filter p := by
  intro l
  induction l with
  | nil => simp [insortLE, List.filter_cons, hpx]
  | cons y ys ih =>
    rw [insortLE]
    by_cases hyx : le y x
    · rw [if_pos hyx, List.filter_cons, List.filter_cons, ih]
    · rw [if_neg hyx, List.filter_cons, if_neg (by simp [hpx])]

theorem isort_go_filter {α : Type} (le : α → α → Bool) (p : α → Bool)
    (trans : ∀ a b c, le a b → le b c → le a c)
    (total : ∀ a b, le a b || le b a)
    (heq : ∀ a b, p a = true → p b = true → le a b) :
    ∀ (l acc : List α), acc.Pairwise (fun a b => le a b) →
      (l.foldl (fun a x => insortLE le x a) acc).filter p =
        acc.filter p ++ l.filter p := by
  intro l
  induction l with
  | nil => intro acc _; simp
  | cons x l ih =>
    intro acc hacc
    rw [List.foldl_cons, ih _ (insort_pairwise le trans total x hacc),
      List.filter_cons]
    by_cases hpx : p x
    · rw [if_pos hpx, insort_filter_pos le p trans x hpx (fun b hb => heq b x hb hpx) hacc]
      simp
    · rw [if_neg hpx, insort_filter_neg le p x (by simpa using hpx)]

theorem isort_filter {α : Type} (le : α → α → Bool) (p : α → Bool)
    (trans : ∀ a b c, le a b → le b c → le a c)
    (total : ∀ a b, le a b || le b a)
    (heq : ∀ a b, p a = true → p b = true → le a b) (l : List α) :
    (isortLE le l).filter p = l.filter p := by
  simpa using isort_go_filter le p trans total heq l [] (List.Pairwise.nil)

/-- C4: `merge_lists` returns the per-entity frequency sums of the
concatenated fragments, strictly ascending by entity id, containing
exactly the ids occurring in some fragment; empty or all-empty input
yields `[]`, and the specification's worked example holds. -/
theorem claim_C4 (lists : List (List (Nat × Nat))) :
    (merge_lists lists).Pairwise (fun a b => a.1 < b.1) ∧
    (∀ t, t ∈ (merge_lists lists).map Prod.fst ↔ t ∈ lists.flatten.map Prod.fst) ∧
    (∀ p ∈ merge_lists lists, p.2 = freqSum p.1 lists.flatten) ∧
    (lists.flatten = [] → merge_lists lists = []) ∧
    merge_lists [[(1, 2), (3, 1), (5, 1)], [(2, 1), (3, 2), (9, 2)]] =
      [(1, 2), (2, 1), (3, 3), (5, 1), (9, 2)] := by
  have hperm : List.Perm (merge_lists lists) (accumFreq lists.flatten) :=
    isort_perm _ _
  have hnd : ((merge_lists lists).map Prod.fst).Nodup :=
    ((hperm.map Prod.fst).nodup_iff).mpr (accumFreq_nodup _)
  refine ⟨?_, ?_, ?_, ?_, by decide⟩
  · have hs : (merge_lists lists).Pairwise (fun a b => pairLE a b) :=
      isort_pairwise _ pairLE_trans pairLE_total _
    have hne : (merge_lists lists).Pairwise (fun a b => a.1 ≠ b.1) :=
      (List.pairwise_map).mp hnd
    refine (hs.and hne).imp ?_
    intro a b hab
    rcases hab with ⟨h1, h2⟩
    simp only [pairLE, Bool.or_eq_true, Bool.and_eq_true, decide_eq_true_eq] at h1
    omega
  · intro t
    rw [(hperm.map Prod.fst).mem_iff, accumFreq_mem]
  · intro p hp
    have hm : p ∈ accumFreq lists.flatten := hperm.mem_iff.mp hp
    have := freqSum_of_mem_nodup (accumFreq_nodup lists.flatten) (t := p.1) (c := p.2)
      (by simpa using hm)
    rw [← this, accumFreq_freqSum]
  · intro h
    simp [merge_lists, h, accumFreq, isortLE]

end QGramIndex

namespace QGramIndex

/-! ### `rank_matches` -/

theorem rankLE_trans (a b c : Nat × Int × Int) :
    rankLE a b → rankLE b c → rankLE a c := by
  simp only [rankLE, Bool.or_eq_true, Bool.and_eq_true, decide_eq_true_eq]
  omega

theorem rankLE_total (a b : Nat × Int × Int) : rankLE a b || rankLE b a := by
  simp only [rankLE, Bool.or_eq_true, Bool.and_eq_true, decide_eq_true_eq]
  omega

/-- C9: `rank_matches` returns a permutation of its input stably sorted by
the two-key order (distance ascending, then score descending): the output
is pairwise ordered by that order, triples with equal distance and equal
score keep their input relative order (filtering on any fixed
(distance, score) pair is unchanged), and the specification's example
holds. -/
theorem claim_C9 (ms : List (Nat × Int × Int)) :
    List.Perm (rank_matches ms) ms ∧
    (rank_matches ms).Pairwise
      (fun a b => a.2.1 < b.2.1 ∨ (a.2.1 = b.2.1 ∧ b.2.2 ≤ a.2.2)) ∧
    (∀ k : Int × Int,
      (rank_matches ms).filter (fun m => m.2 = k) =
        ms.filter (fun m => m.2 = k)) ∧
    rank_matches [(1, 0, 3), (2, 1, 2), (2, 1, 3), (1, 0, 2)] =
      [(1, 0, 3), (1, 0, 2), (2, 1, 3), (2, 1, 2)] := by
  refine ⟨isort_perm _ _, ?_, ?_, by decide⟩
  · refine (isort_pairwise _ rankLE_trans rankLE_total ms).imp ?_
    intro a b h
    simpa only [rankLE, Bool.or_eq_true, Bool.and_eq_true, decide_eq_true_eq] using h
  · intro k
    refine isort_filter _ _ rankLE_trans rankLE_total ?_ ms
    intro a b ha hb
    simp only [decide_eq_true_eq] at ha hb
    simp only [rankLE, Bool.or_eq_true, Bool.and_eq_true, decide_eq_true_eq]
    exact Or.inr ⟨by rw [ha, hb], by rw [ha, hb]⟩

end QGramIndex

namespace QGramIndex

/-! ### `find_matches`: verified distances, negative delta (C6) -/

theorem pedBounded_le_iff (x y : List Char) (δ : Int) :
    pedBounded x y δ ≤ δ ↔ (pedTrue x y : Int) ≤ δ := by
  rw [pedBounded, min_le_iff]
  omega

/-- C6: every match triple emitted by `find_matches` carries the verified
bounded-PED distance, which is at most `delta`; consequently a negative
`delta` yields the empty result — and no error, the embedding being a
total function. -/
theorem claim_C6 (q : Nat) (st : St) (x : List Char) (δ : Int) :
    (∀ m ∈ (find_matches q st x δ).1, m.2.1 ≤ δ) ∧
    (δ < 0 → (find_matches q st x δ).1 = []) := by
  constructor
  · intro m hm
    simp only [find_matches] at hm
    rcases List.mem_filterMap.mp hm with ⟨p, -, hf⟩
    by_cases hped : pedBounded x (entity_n_name st p.1) δ ≤ δ
    · rw [if_pos hped] at hf
      cases hf
      exact hped
    · rw [if_neg hped] at hf
      cases hf
  · intro hδ
    simp only [find_matches]
    rw [List.filterMap_eq_nil_iff]
    intro p hp
    rw [if_neg]
    rw [pedBounded_le_iff]
    omega

/-! ### `build_from_file`: blank records, malformed records (C5) -/

/-- C5: blank input records are skipped leaving the build state (and so
the entity-id counter) unchanged; a non-blank record that does not split
into exactly 7 tab-separated fields fails the record step with
`malformedRecord`; and such a failure aborts the whole build: however many
records follow, `build_from_records` returns the error of the first bad
record. -/
theorem claim_C5 (q : Nat) (st : St) (line : List Char) :
    (pyStrip line = [] → buildLine q st line = .ok st) ∧
    (pyStrip line ≠ [] → (splitTabAux 7 [] line).length ≠ 7 →
      buildLine q st line = .error .malformedRecord) ∧
    (∀ (pre post : List (List Char)),
      build_from_records q pre = .ok st →
      buildLine q st line = .error .malformedRecord →
      build_from_records q (pre ++ line :: post) = .error .malformedRecord) := by
  refine ⟨?_, ?_, ?_⟩
  · intro h
    rw [buildLine, if_pos h]
  · intro hb h
    rw [buildLine, if_neg hb]
    generalize hL : splitTabAux 7 [] line = L at h
    rcases L with _ | ⟨a, _ | ⟨b, _ | ⟨c, _ | ⟨d, _ | ⟨e, _ | ⟨f, _ | ⟨g, _ | ⟨h8, t⟩⟩⟩⟩⟩⟩⟩⟩
    · rfl
    · rfl
    · rfl
    · rfl
    · rfl
    · rfl
    · rfl
    · exact absurd rfl h
    · rfl
  · intro pre post h1 h2
    rw [build_from_records, List.foldlM_append]
    rw [build_from_records] at h1
    rw [h1]
    show (line :: post).foldlM (buildLine q) st = _
    rw [List.foldlM_cons, h2]
    rfl

end QGramIndex

namespace QGramIndex

/-! ### Frame effects of `find_matches` (C2) -/

theorem lookupD_nil_values (ext : List (List Char × List (Nat × Nat)))
    (h : ∀ p ∈ ext, p.2 = []) (g : List Char) : lookupD ext g = [] := by
  induction ext with
  | nil => rfl
  | cons p m ih =>
    rcases p with ⟨k, v⟩
    rw [lookupD]
    by_cases hk : k = g
    · rw [if_pos hk]
      exact h (k, v) (List.mem_cons_self _ _)
    · rw [if_neg hk]
      exact ih (fun p hp => h p (List.mem_cons_of_mem _ hp))

theorem lookupD_append_nil_values (m ext : List (List Char × List (Nat × Nat)))
    (h : ∀ p ∈ ext, p.2 = []) (g : List Char) :
    lookupD (m ++ ext) g = lookupD m g := by
  induction m with
  | nil => simpa using lookupD_nil_values ext h g
  | cons p m ih =>
    rcases p with ⟨k, v⟩
    rw [List.cons_append, lookupD, lookupD]
    by_cases hk : k = g
    · rw [if_pos hk, if_pos hk]
    · rw [if_neg hk, if_neg hk, ih]

theorem fetchLists_snd (gs : List (List Char)) :
    ∀ (m : List (List Char × List (Nat × Nat))),
      ∃ ext, (fetchLists m gs).2 = m ++ ext ∧
        ∀ p ∈ ext, p.1 ∈ gs ∧ p.2 = [] := by
  induction gs with
  | nil => intro m; exact ⟨[], by simp [fetchLists], by simp⟩
  | cons g gs ih =>
    intro m
    rw [fetchLists]
    by_cases h : hasKey m g
    · rcases ih m with ⟨ext, h1, h2⟩
      refine ⟨ext, ?_, fun p hp => ⟨List.mem_cons_of_mem _ (h2 p hp).1, (h2 p hp).2⟩⟩
      simpa [ddGet, h] using h1
    · rcases ih (m ++ [(g, [])]) with ⟨ext, h1, h2⟩
      refine ⟨(g, []) :: ext, ?_, ?_⟩
      · have hdd : (ddGet m g).2 = m ++ [(g, [])] := by simp [ddGet, h]
        show (fetchLists (ddGet m g).2 gs).2 = _
        rw [hdd, h1]
        simp
      · intro p hp
        rcases List.mem_cons.mp hp with rfl | hp
        · exact ⟨List.mem_cons_self _ _, rfl⟩
        · exact ⟨List.mem_cons_of_mem _ (h2 p hp).1, (h2 p hp).2⟩

/-- C2 counterexample: on the index built from `c2Lines`, the query
`find_matches "xyz" 0` changes the key set of `inverted_lists` — the
`defaultdict` reads insert the three unseen q-grams of `"xyz"` as new keys
(with empty lists), so the index state is not left exactly as it was. -/
theorem claim_C2_counterexample :
    (build_from_file 3 c2Lines).toOption = some c2St ∧
    (find_matches 3 c2St ("xyz".data) 0).2.inverted_lists.map Prod.fst ≠
      c2St.inverted_lists.map Prod.fst := by
  constructor
  · decide
  · decide

/-- C2 as amended: `find_matches` preserves the entities store, the entity
counter and the value of every inverted list (reading `inverted_lists` as
the total mapping with default `[]`); the only state change is that the key
set of `inverted_lists` may be extended, at the end and in order, with
q-grams of the query prefix bound to empty lists — the `defaultdict`
auto-vivification.  `rank_matches` takes no index state at all, so queries
are semantically read-only but not literally mutation-free. -/
theorem claim_C2 (q : Nat) (st : St) (x : List Char) (δ : Int) :
    (find_matches q st x δ).2.entities = st.entities ∧
    (find_matches q st x δ).2.eid = st.eid ∧
    (∀ g, lookupD (find_matches q st x δ).2.inverted_lists g =
      lookupD st.inverted_lists g) ∧
    (∃ ext, (find_matches q st x δ).2.inverted_lists = st.inverted_lists ++ ext ∧
      ∀ p ∈ ext, p.1 ∈ compute_qgrams q x ∧ p.2 = []) := by
  have hst : (find_matches q st x δ).2.inverted_lists =
      (fetchLists st.inverted_lists (compute_qgrams q x)).2 := by
    simp [find_matches]
  rcases fetchLists_snd (compute_qgrams q x) st.inverted_lists with ⟨ext, h1, h2⟩
  refine ⟨by simp [find_matches], by simp [find_matches], ?_, ext, by rw [hst, h1], h2⟩
  intro g
  rw [hst, h1]
  exact lookupD_append_nil_values _ ext (fun p hp => (h2 p hp).2) g

end QGramIndex

namespace QGramIndex

/-! ### Association-map lemmas -/

theorem lookupD_setKey_self (m : List (List Char × List (Nat × Nat)))
    (g : List Char) (v : List (Nat × Nat)) : lookupD (setKey m g v) g = v := by
  induction m with
  | nil => simp [setKey, lookupD]
  | cons p m ih =>
    rcases p with ⟨k, w⟩
    by_cases hk : k = g
    · rw [setKey, if_pos hk, lookupD, if_pos hk]
    · rw [setKey, if_neg hk, lookupD, if_neg hk, ih]

theorem lookupD_setKey_ne (m : List (List Char × List (Nat × Nat)))
    (g : List Char) (v : List (Nat × Nat)) (g' : List Char) (h : g' ≠ g) :
    lookupD (setKey m g v) g' = lookupD m g' := by
  induction m with
  | nil =>
    rw [setKey]
    show (if g = g' then v else lookupD [] g') = lookupD [] g'
    rw [if_neg (Ne.symm h)]
  | cons p m ih =>
    rcases p with ⟨k, w⟩
    by_cases hk : k = g
    · rw [setKey, if_pos hk, lookupD, lookupD, if_neg (by rw [hk]; exact Ne.symm h),
        if_neg (by rw [hk]; exact Ne.symm h)]
    · rw [setKey, if_neg hk, lookupD, lookupD]
      by_cases hk' : k = g'
      · rw [if_pos hk', if_pos hk']
      · rw [if_neg hk', if_neg hk', ih]

theorem lookupD_of_hasKey_false (m : List (List Char × List (Nat × Nat)))
    (g : List Char) (h : hasKey m g = false) : lookupD m g = [] := by
  induction m with
  | nil => rfl
  | cons p m ih =>
    rcases p with ⟨k, v⟩
    rw [hasKey] at h
    simp only [Bool.or_eq_false_iff, decide_eq_false_iff_not] at h
    rw [lookupD, if_neg h.1, ih h.2]

theorem ddGet_fst (m : List (List Char × List (Nat × Nat))) (g : List Char) :
    (ddGet m g).1 = lookupD m g := by
  by_cases h : hasKey m g
  · simp [ddGet, h]
  · simp [ddGet, h, lookupD_of_hasKey_false m g (by simpa using h)]

theorem lookupD_ddGet_snd (m : List (List Char × List (Nat × Nat)))
    (g g' : List Char) : lookupD (ddGet m g).2 g' = lookupD m g' := by
  by_cases h : hasKey m g
  · simp [ddGet, h]
  · have hdd : (ddGet m g).2 = m ++ [(g, [])] := by simp [ddGet, h]
    rw [hdd]
    exact lookupD_append_nil_values m [(g, [])] (by simp) g'

theorem insertGram_lookupD_self (m : List (List Char × List (Nat × Nat)))
    (e : Nat) (g : List Char) :
    lookupD (insertGram m e g) g = updIL (lookupD m g) e := by
  show lookupD (setKey (ddGet m g).2 g (updIL (ddGet m g).1 e)) g = _
  rw [lookupD_setKey_self, ddGet_fst]

theorem insertGram_lookupD_ne (m : List (List Char × List (Nat × Nat)))
    (e : Nat) (g g' : List Char) (h : g' ≠ g) :
    lookupD (insertGram m e g) g' = lookupD m g' := by
  show lookupD (setKey (ddGet m g).2 g (updIL (ddGet m g).1 e)) g' = _
  rw [lookupD_setKey_ne _ _ _ _ h, lookupD_ddGet_snd]

/-! ### The inverted-list invariant through the build (C7) -/

theorem goodIL_nil : goodIL [] := ⟨List.Pairwise.nil, by simp⟩

theorem goodIL_last_max {v : List (Nat × Nat)} (hg : goodIL v) {t c : Nat}
    (hl : v.getLast? = some (t, c)) : ∀ p ∈ v, p.1 ≤ t := by
  rcases List.getLast?_eq_some_iff.mp hl with ⟨ys, rfl⟩
  intro p hp
  rcases List.mem_append.mp hp with h | h
  · have := (List.pairwise_append.mp hg.1).2.2 p h (t, c) (by simp)
    omega
  · rw [List.mem_singleton.mp h]

theorem updIL_good {v : List (Nat × Nat)} {e : Nat} (hg : goodIL v)
    (ht : ∀ p ∈ v, p.1 ≤ e) :
    goodIL (updIL v e) ∧ ∀ p ∈ updIL v e, p.1 ≤ e := by
  rcases hv : v.getLast? with - | ⟨t, c⟩
  · have hnil : v = [] := List.getLast?_eq_none_iff.mp hv
    subst hnil
    refine ⟨⟨by simp [updIL], by simp [updIL]⟩, by simp [updIL]⟩
  · rcases List.getLast?_eq_some_iff.mp hv with ⟨ys, rfl⟩
    have hmax : ∀ p ∈ ys ++ [(t, c)], p.1 ≤ t := goodIL_last_max hg hv
    have hte : t ≤ e := ht (t, c) (by simp)
    by_cases hne : t = e
    · subst hne
      have hupd : updIL (ys ++ [(t, c)]) t = ys ++ [(t, c + 1)] := by
        simp [updIL, List.getLast?_concat]
      rw [hupd]
      have hpw : (ys ++ [(t, c + 1)]).Pairwise (fun a b => a.1 < b.1) := by
        rw [List.pairwise_append]
        have h0 := List.pairwise_append.mp hg.1
        refine ⟨h0.1, by simp, ?_⟩
        intro a ha b hb
        rw [List.mem_singleton.mp hb]
        exact h0.2.2 a ha (t, c) (by simp)
      refine ⟨⟨hpw, ?_⟩, ?_⟩
      · intro p hp
        rcases List.mem_append.mp hp with h | h
        · exact hg.2 p (List.mem_append.mpr (Or.inl h))
        · rw [List.mem_singleton.mp h]
          omega
      · intro p hp
        rcases List.mem_append.mp hp with h | h
        · exact ht p (List.mem_append.mpr (Or.inl h))
        · rw [List.mem_singleton.mp h]
    · have hupd : updIL (ys ++ [(t, c)]) e = (ys ++ [(t, c)]) ++ [(e, 1)] := by
        simp [updIL, List.getLast?_concat, hne]
      rw [hupd]
      have hlt : t < e := by omega
      have hpw : ((ys ++ [(t, c)]) ++ [(e, 1)]).Pairwise
          (fun (a b : Nat × Nat) => a.1 < b.1) := by
        rw [List.pairwise_append]
        refine ⟨hg.1, by simp, fun a ha b hb => ?_⟩
        rw [List.mem_singleton.mp hb]
        have := hmax a ha
        omega
      refine ⟨⟨hpw, ?_⟩, ?_⟩
      · intro p hp
        rcases List.mem_append.mp hp with h | h
        · exact hg.2 p h
        · rw [List.mem_singleton.mp h]
      · intro p hp
        rcases List.mem_append.mp hp with h | h
        · exact ht p h
        · rw [List.mem_singleton.mp h]

theorem insertGram_pres {m : List (List Char × List (Nat × Nat))} {e : Nat}
    (g : List Char)
    (hg : ∀ g', goodIL (lookupD m g'))
    (ht : ∀ g' p, p ∈ lookupD m g' → p.1 ≤ e) :
    (∀ g', goodIL (lookupD (insertGram m e g) g')) ∧
    (∀ g' p, p ∈ lookupD (insertGram m e g) g' → p.1 ≤ e) := by
  have h := updIL_good (hg g) (fun p hp => ht g p hp)
  constructor
  · intro g'
    by_cases hgg : g' = g
    · rw [hgg, insertGram_lookupD_self]
      exact h.1
    · rw [insertGram_lookupD_ne _ _ _ _ hgg]
      exact hg g'
  · intro g' p hp
    by_cases hgg : g' = g
    · rw [hgg, insertGram_lookupD_self] at hp
      exact h.2 p hp
    · rw [insertGram_lookupD_ne _ _ _ _ hgg] at hp
      exact ht g' p hp

theorem foldl_insertGram_pres (gs : List (List Char)) :
    ∀ (m : List (List Char × List (Nat × Nat))) (e : Nat),
      (∀ g', goodIL (lookupD m g')) →
      (∀ g' p, p ∈ lookupD m g' → p.1 ≤ e) →
      (∀ g', goodIL (lookupD (gs.foldl (fun a g => insertGram a e g) m) g')) ∧
      (∀ g' p, p ∈ lookupD (gs.foldl (fun a g => insertGram a e g) m) g' → p.1 ≤ e) := by
  induction gs with
  | nil => intro m e hg ht; exact ⟨hg, ht⟩
  | cons g gs ih =>
    intro m e hg ht
    rw [List.foldl_cons]
    have h := insertGram_pres g hg ht
    exact ih _ e h.1 h.2

theorem foldlM_build_cons {q : Nat} {r : List Char} {recs : List (List Char)}
    {st₀ st : St} (h : (r :: recs).foldlM (buildLine q) st₀ = .ok st) :
    ∃ st₁, buildLine q st₀ r = .ok st₁ ∧ recs.foldlM (buildLine q) st₁ = .ok st := by
  rw [List.foldlM_cons] at h
  rcases hf : buildLine q st₀ r with e | st₁
  · rw [hf] at h
    cases h
  · rw [hf] at h
    exact ⟨st₁, rfl, h⟩

theorem buildLine_shape {q : Nat} {st : St} {line : List Char} {st' : St}
    (h : buildLine q st line = .ok st') :
    st' = st ∨
    ∃ nm sc ds u wid sy im, splitTabAux 7 [] line = [nm, sc, ds, u, wid, sy, im] ∧
      st' = ⟨st.eid + 1,
        st.entities ++ [(st.eid + 1,
          ⟨nm, normalize nm, sc, ds, u, wid, splitAllAux ';' [] (pyStrip sy), im⟩)],
        (compute_qgrams q (normalize nm)).foldl
          (fun m g => insertGram m (st.eid + 1) g) st.inverted_lists⟩ := by
  rw [buildLine] at h
  by_cases hb : pyStrip line = []
  · rw [if_pos hb] at h
    cases h
    exact Or.inl rfl
  · rw [if_neg hb] at h
    generalize hL : splitTabAux 7 [] line = L at h
    rcases L with - | ⟨a, - | ⟨b, - | ⟨c, - | ⟨d, - | ⟨e, - | ⟨f, - | ⟨g, - | ⟨h8, t⟩⟩⟩⟩⟩⟩⟩⟩
    · cases h
    · cases h
    · cases h
    · cases h
    · cases h
    · cases h
    · cases h
    · cases h
      exact Or.inr ⟨a, b, c, d, e, f, g, rfl, rfl⟩
    · cases h

theorem build_records_pres (q : Nat) :
    ∀ (recs : List (List Char)) (st₀ st : St),
      recs.foldlM (buildLine q) st₀ = .ok st →
      (∀ g, goodIL (lookupD st₀.inverted_lists g)) →
      (∀ g p, p ∈ lookupD st₀.inverted_lists g → p.1 ≤ st₀.eid) →
      (∀ g, goodIL (lookupD st.inverted_lists g)) ∧
      (∀ g p, p ∈ lookupD st.inverted_lists g → p.1 ≤ st.eid) := by
  intro recs
  induction recs with
  | nil =>
    intro st₀ st h hg ht
    cases h
    exact ⟨hg, ht⟩
  | cons r recs ih =>
    intro st₀ st h hg ht
    rcases foldlM_build_cons h with ⟨st₁, h1, h2⟩
    rcases buildLine_shape h1 with rfl | ⟨nm, sc, ds, u, wid, sy, im, -, rfl⟩
    · exact ih st₁ st h2 hg ht
    · have hpres := foldl_insertGram_pres (compute_qgrams q (normalize nm))
        st₀.inverted_lists (st₀.eid + 1) hg
        (fun g p hp => Nat.le_succ_of_le (ht g p hp))
      exact ih _ st h2 hpres.1 hpres.2

/-- C7: after every step of the build pass, every inverted list has
strictly increasing entity ids and every frequency at least 1.  The first
conjunct covers the state after each complete record (instantiate `recs`
with any prefix of the input records); the second covers the states in the
middle of indexing the next entity, after any prefix `gs` of its q-grams
has been inserted. -/
theorem claim_C7 (q : Nat) (recs : List (List Char)) (st : St)
    (hb : build_from_records q recs = .ok st) :
    (∀ g, goodIL (lookupD st.inverted_lists g)) ∧
    (∀ (gs : List (List Char)) (g : List Char),
      goodIL (lookupD
        (gs.foldl (fun m g' => insertGram m (st.eid + 1) g') st.inverted_lists) g)) := by
  have h := build_records_pres q recs ⟨0, [], []⟩ st hb
    (fun g => goodIL_nil) (by intro g p hp; cases hp)
  refine ⟨h.1, fun gs g => ?_⟩
  exact (foldl_insertGram_pres gs st.inverted_lists (st.eid + 1) h.1
    (fun g' p hp => Nat.le_succ_of_le (h.2 g' p hp))).1 g

/-- Witness for `claim_C7`: the two-entity corpus of the doctests. -/
theorem claim_C7_witness :
    build_from_records 3 c7Lines = .ok c7St ∧
    (∀ g, goodIL (lookupD c7St.inverted_lists g)) :=
  ⟨rfl, (claim_C7 3 c7Lines c7St rfl).1⟩

end QGramIndex

namespace QGramIndex

/-! ### Edit-distance equations and edit scripts -/

theorem edFuel_succ : ∀ (n : Nat) (x y : List Char), x.length + y.length ≤ n →
    edFuel (n + 1) x y = edFuel n x y := by
  intro n
  induction n with
  | zero =>
    intro x y h
    rcases x with - | ⟨a, xs⟩
    · rfl
    · simp at h
  | succ n ih =>
    intro x y h
    rcases x with - | ⟨a, xs⟩
    · rfl
    rcases y with - | ⟨b, ys⟩
    · rfl
    show (if a = b then edFuel (n + 1) xs ys
        else 1 + min (edFuel (n + 1) xs (b :: ys))
          (min (edFuel (n + 1) (a :: xs) ys) (edFuel (n + 1) xs ys))) =
      (if a = b then edFuel n xs ys
        else 1 + min (edFuel n xs (b :: ys))
          (min (edFuel n (a :: xs) ys) (edFuel n xs ys)))
    simp only [List.length_cons] at h
    rw [ih xs ys (by omega), ih xs (b :: ys) (by simp only [List.length_cons]; omega),
      ih (a :: xs) ys (by simp only [List.length_cons]; omega)]

theorem edFuel_eq_ed : ∀ (n : Nat) (x y : List Char), x.length + y.length ≤ n →
    edFuel n x y = ed x y := by
  intro n
  induction n with
  | zero =>
    intro x y h
    have hx : x.length = 0 := by omega
    have hy : y.length = 0 := by omega
    rw [ed, hx, hy]
  | succ n ih =>
    intro x y h
    by_cases hn : x.length + y.length ≤ n
    · rw [edFuel_succ n x y hn, ih x y hn]
    · have : x.length + y.length = n + 1 := by omega
      rw [ed, this]

theorem edFuel_nil_left (n : Nat) (ys : List Char) : edFuel n [] ys = ys.length := by
  cases n <;> rfl

theorem edFuel_cons_nil (n : Nat) (a : Char) (xs : List Char) :
    edFuel n (a :: xs) [] = xs.length + 1 := by
  cases n <;> rfl

theorem ed_nil_left (ys : List Char) : ed [] ys = ys.length :=
  edFuel_nil_left _ ys

theorem ed_nil_right (x : List Char) : ed x [] = x.length := by
  cases x with
  | nil => exact edFuel_nil_left _ _
  | cons a xs => exact edFuel_cons_nil _ a xs

theorem ed_cons_cons (a b : Char) (xs ys : List Char) :
    ed (a :: xs) (b :: ys) =
      if a = b then ed xs ys
      else 1 + min (ed xs (b :: ys)) (min (ed (a :: xs) ys) (ed xs ys)) := by
  have hL : (a :: xs).length + (b :: ys).length = (xs.length + ys.length) + 1 + 1 := by
    simp only [List.length_cons]
    omega
  rw [ed, hL]
  show (if a = b then edFuel (xs.length + ys.length + 1) xs ys
      else 1 + min (edFuel (xs.length + ys.length + 1) xs (b :: ys))
        (min (edFuel (xs.length + ys.length + 1) (a :: xs) ys)
          (edFuel (xs.length + ys.length + 1) xs ys))) = _
  rw [edFuel_eq_ed _ xs ys (by omega),
    edFuel_eq_ed _ xs (b :: ys) (by simp only [List.length_cons]; omega),
    edFuel_eq_ed _ (a :: xs) ys (by simp only [List.length_cons]; omega)]

theorem foldr_min_le_iff (l : List Nat) (init n : Nat) :
    l.foldr min init ≤ n ↔ init ≤ n ∨ ∃ a ∈ l, a ≤ n := by
  induction l with
  | nil => simp
  | cons a l ih =>
    rw [List.foldr_cons, min_le_iff, ih]
    constructor
    · rintro (h | h | ⟨b, hb, h⟩)
      · exact Or.inr ⟨a, List.mem_cons_self _ _, h⟩
      · exact Or.inl h
      · exact Or.inr ⟨b, List.mem_cons_of_mem _ hb, h⟩
    · rintro (h | ⟨b, hb, h⟩)
      · exact Or.inr (Or.inl h)
      · rcases List.mem_cons.mp hb with rfl | hb
        · exact Or.inl h
        · exact Or.inr (Or.inr ⟨b, hb, h⟩)

theorem pedTrue_le_iff (x y : List Char) (n : Nat) :
    pedTrue x y ≤ n ↔ ∃ k, k ≤ y.length ∧ ed x (y.take k) ≤ n := by
  rw [pedTrue, foldr_min_le_iff]
  constructor
  · rintro (h | ⟨a, ha, hle⟩)
    · refine ⟨0, by omega, ?_⟩
      rw [List.take_zero, ed_nil_right]
      exact h
    · rcases List.mem_map.mp ha with ⟨k, hk, rfl⟩
      exact ⟨k, by simpa [Nat.lt_succ_iff] using List.mem_range.mp hk, hle⟩
  · rintro ⟨k, hk, hke⟩
    refine Or.inr ⟨ed x (y.take k), List.mem_map.mpr ⟨k, ?_, rfl⟩, hke⟩
    rw [List.mem_range]
    omega

theorem EditStep.consStep {s t : List Char} (c : Char) (h : EditStep s t) :
    EditStep (c :: s) (c :: t) := by
  rcases h with ⟨u, v, a⟩ | ⟨u, v, a⟩ | ⟨u, v, a, b⟩
  · exact EditStep.del (c :: u) v a
  · exact EditStep.ins (c :: u) v a
  · exact EditStep.sub (c :: u) v a b

theorem Reach.cons {n : Nat} {s t : List Char} (c : Char) (h : Reach n s t) :
    Reach n (c :: s) (c :: t) := by
  induction h with
  | refl n x => exact Reach.refl n (c :: x)
  | step e r ih => exact Reach.step (e.consStep c) ih

theorem Reach.succ {n : Nat} {s t : List Char} (h : Reach n s t) :
    Reach (n + 1) s t := by
  induction h with
  | refl n x => exact Reach.refl (n + 1) x
  | step e r ih => exact Reach.step e ih

theorem Reach.mono {n m : Nat} {s t : List Char} (h : Reach n s t) (hnm : n ≤ m) :
    Reach m s t := by
  rcases Nat.exists_eq_add_of_le hnm with ⟨k, rfl⟩
  clear hnm
  induction k with
  | zero => exact h
  | succ k ih => exact ih.succ

theorem Reach.snoc {n : Nat} {x y z : List Char} (h : Reach n x y)
    (e : EditStep y z) : Reach (n + 1) x z := by
  induction h with
  | refl n x => exact Reach.step e (Reach.refl n z)
  | step e' r ih => exact Reach.step e' (ih e)

theorem reach_nil_to (l : List Char) : Reach l.length [] l := by
  induction l with
  | nil => exact Reach.refl 0 []
  | cons b ys ih => exact Reach.step (EditStep.ins [] [] b) (ih.cons b)

theorem reach_to_nil (l : List Char) : Reach l.length l [] := by
  induction l with
  | nil => exact Reach.refl 0 []
  | cons a xs ih => exact Reach.step (EditStep.del [] xs a) ih

theorem reach_ed_aux : ∀ (n : Nat) (x y : List Char), x.length + y.length ≤ n →
    Reach (ed x y) x y := by
  intro n
  induction n with
  | zero =>
    intro x y h
    have hx : x.length = 0 := by omega
    have hy : y.length = 0 := by omega
    rw [List.length_eq_zero.mp hx, List.length_eq_zero.mp hy]
    exact Reach.refl _ []
  | succ n ih =>
    intro x y h
    rcases x with - | ⟨a, xs⟩
    · rw [ed_nil_left]
      exact reach_nil_to y
    rcases y with - | ⟨b, ys⟩
    · rw [ed_nil_right]
      exact reach_to_nil _
    rw [ed_cons_cons]
    simp only [List.length_cons] at h
    by_cases hab : a = b
    · rw [if_pos hab]
      subst hab
      exact (ih xs ys (by omega)).cons a
    · rw [if_neg hab]
      have h1 := ih xs (b :: ys) (by simp only [List.length_cons]; omega)
      have h2 := ih (a :: xs) ys (by simp only [List.length_cons]; omega)
      have h3 := ih xs ys (by omega)
      have hmin : min (ed xs (b :: ys)) (min (ed (a :: xs) ys) (ed xs ys)) = ed xs (b :: ys) ∨
          min (ed xs (b :: ys)) (min (ed (a :: xs) ys) (ed xs ys)) = ed (a :: xs) ys ∨
          min (ed xs (b :: ys)) (min (ed (a :: xs) ys) (ed xs ys)) = ed xs ys := by
        rcases Nat.le_total (ed xs (b :: ys)) (min (ed (a :: xs) ys) (ed xs ys)) with h' | h'
        · exact Or.inl (Nat.min_eq_left h')
        · rcases Nat.le_total (ed (a :: xs) ys) (ed xs ys) with h'' | h''
          · exact Or.inr (Or.inl (by rw [Nat.min_eq_right h', Nat.min_eq_left h'']))
          · exact Or.inr (Or.inr (by rw [Nat.min_eq_right h', Nat.min_eq_right h'']))
      rcases hmin with hm | hm | hm <;> rw [hm, Nat.add_comm]
      · exact Reach.step (EditStep.del [] xs a) h1
      · exact h2.snoc (EditStep.ins [] ys b)
      · exact Reach.step (EditStep.sub [] xs a b) (h3.cons b)

theorem reach_ed (x y : List Char) : Reach (ed x y) x y :=
  reach_ed_aux (x.length + y.length) x y (Nat.le_refl _)

end QGramIndex

namespace QGramIndex

/-! ### Window decomposition lemmas -/

theorem windows_length (q : Nat) (w : List Char) :
    (windows q w).length = w.length + 1 - q := by
  rw [windows]
  by_cases h : w.length < q
  · rw [if_pos h]
    simp only [List.length_nil]
    omega
  · rw [if_neg h]
    simp only [List.length_map, List.length_range]
    omega

theorem windows_take (q : Nat) (c v : List Char) :
    (windows q (c ++ v)).take (c.length + 1 - q) = windows q c := by
  by_cases hc : c.length < q
  · have hA : c.length + 1 - q = 0 := by omega
    rw [hA, List.take_zero, windows, if_pos hc]
  · have hcv : ¬(c ++ v).length < q := by
      simp only [List.length_append]
      omega
    rw [windows, if_neg hcv, windows, if_neg hc, ← List.map_take, List.take_range]
    have hA : min (c.length + 1 - q) ((c ++ v).length - q + 1) = c.length - q + 1 := by
      simp only [List.length_append]
      omega
    rw [hA]
    apply List.map_congr_left
    intro i hi
    rw [List.mem_range] at hi
    rw [List.drop_append_of_le_length (by omega),
      List.take_append_of_le_length (by simp only [List.length_drop]; omega)]

theorem windows_drop (q : Nat) (c v : List Char) :
    (windows q (c ++ v)).drop c.length = windows q v := by
  by_cases hcv : (c ++ v).length < q
  · have hv : v.length < q := by
      simp only [List.length_append] at hcv
      omega
    rw [windows, if_pos hcv, windows, if_pos hv, List.drop_nil]
  · by_cases hv : v.length < q
    · have hlen : (windows q (c ++ v)).length ≤ c.length := by
        rw [windows_length]
        simp only [List.length_append]
        omega
      rw [List.drop_eq_nil_of_le hlen, windows, if_pos hv]
    · rw [windows, if_neg hcv, windows, if_neg hv, ← List.map_drop]
      have hsplit : List.range ((c ++ v).length - q + 1) =
          List.range' 0 c.length ++ List.range' c.length (v.length - q + 1) := by
        have h2 := List.range'_append 0 c.length (v.length - q + 1) 1
        simp only [Nat.one_mul, Nat.zero_add] at h2
        rw [List.range_eq_range', h2]
        congr 1
        simp only [List.length_append]
        omega
      rw [hsplit, List.drop_left' (by rw [List.length_range']),
        List.range'_eq_map_range, List.map_map]
      apply List.map_congr_left
      intro i hi
      simp only [Function.comp_apply]
      have hdd : (c ++ v).drop (c.length + i) = v.drop i := by
        rw [← List.drop_drop, List.drop_left]
      exact congrArg (List.take q) hdd

theorem take_middle_drop {α : Type} (l : List α) (a b : Nat) (hab : a ≤ b) :
    l = l.take a ++ ((l.drop a).take (b - a)) ++ l.drop b := by
  conv_lhs => rw [← List.take_append_drop a l]
  rw [List.append_assoc]
  congr 1
  conv_lhs => rw [← List.take_append_drop (b - a) (l.drop a)]
  congr 1
  rw [List.drop_drop]
  congr 1
  omega

theorem windows_decomp (q : Nat) (hq : 1 ≤ q) (c v : List Char) :
    ∃ mid, windows q (c ++ v) = windows q c ++ mid ++ windows q v ∧
      mid.length ≤ q - 1 := by
  refine ⟨((windows q (c ++ v)).drop (c.length + 1 - q)).take
      (c.length - (c.length + 1 - q)), ?_, ?_⟩
  · have h := take_middle_drop (windows q (c ++ v)) (c.length + 1 - q) c.length
      (by omega)
    rw [windows_take, windows_drop] at h
    exact h
  · calc (((windows q (c ++ v)).drop (c.length + 1 - q)).take
        (c.length - (c.length + 1 - q))).length
        ≤ c.length - (c.length + 1 - q) := List.length_take_le _ _
      _ ≤ q - 1 := by omega

theorem windows_cons (q : Nat) (a : Char) (v : List Char) (h : q ≤ v.length + 1) :
    windows q (a :: v) = ((a :: v).take q) :: windows q v := by
  rw [windows, if_neg (by simp only [List.length_cons]; omega)]
  have hn : (a :: v).length - q + 1 = (v.length + 1 - q) + 1 := by
    simp only [List.length_cons]
  rw [hn, List.range_succ_eq_map, List.map_cons, List.map_map]
  congr 1
  rw [windows]
  by_cases hv : v.length < q
  · rw [if_pos hv]
    have h0 : v.length + 1 - q = 0 := by omega
    rw [h0]
    rfl
  · rw [if_neg hv]
    have h1 : v.length + 1 - q = v.length - q + 1 := by omega
    rw [h1]
    apply List.map_congr_left
    intro i hi
    simp only [Function.comp_apply, List.drop_succ_cons]

theorem windows_cons_le (q : Nat) (a : Char) (v : List Char) :
    (windows q (a :: v) : Multiset (List Char)) ≤
      ((a :: v).take q) ::ₘ (windows q v : Multiset (List Char)) := by
  by_cases h : q ≤ v.length + 1
  · rw [windows_cons q a v h]
    exact le_of_eq (Multiset.cons_coe _ _).symm
  · have hnil : windows q (a :: v) = [] := by
      rw [windows, if_pos (by simp only [List.length_cons]; omega)]
    rw [hnil]
    exact Multiset.zero_le _

theorem windows_le_cons (q : Nat) (a : Char) (v : List Char) :
    (windows q v : Multiset (List Char)) ≤ (windows q (a :: v) : Multiset (List Char)) := by
  by_cases h : q ≤ v.length + 1
  · rw [windows_cons q a v h]
    rw [← Multiset.cons_coe]
    exact Multiset.le_cons_self _ _
  · have hnil : windows q v = [] := by
      rw [windows, if_pos (by omega)]
    rw [hnil]
    exact Multiset.zero_le _

end QGramIndex

namespace QGramIndex

/-! ### The q-gram corruption bound -/

theorem editStep_grams_bound {q : Nat} (hq : 1 ≤ q) {s t : List Char}
    (h : EditStep s t) :
    Multiset.card (gramsM q s - gramsM q t) ≤ q := by
  rcases h with ⟨u, v, a⟩ | ⟨u, v, a⟩ | ⟨u, v, a, b⟩
  · -- deletion: s = u ++ a :: v, t = u ++ v
    rcases windows_decomp q hq (padding q ++ u) (a :: v) with ⟨m2, he2, hl2⟩
    rcases windows_decomp q hq (padding q ++ u) v with ⟨m1, he1, hl1⟩
    have hs : gramsM q (u ++ a :: v) =
        (windows q ((padding q ++ u) ++ (a :: v)) : Multiset (List Char)) := by
      rw [gramsM, List.append_assoc]
    have ht : gramsM q (u ++ v) =
        (windows q ((padding q ++ u) ++ v) : Multiset (List Char)) := by
      rw [gramsM, List.append_assoc]
    have hle : gramsM q (u ++ a :: v) - gramsM q (u ++ v) ≤
        (m2 : Multiset (List Char)) + {(a :: v).take q} := by
      rw [Multiset.le_iff_count]
      intro g
      rw [Multiset.count_sub, Multiset.count_add, hs, ht, he2, he1]
      have hc := Multiset.count_le_of_le g (windows_cons_le q a v)
      rw [Multiset.count_cons] at hc
      rw [Multiset.count_singleton]
      simp only [Multiset.coe_count, List.count_append] at hc ⊢
      by_cases hg : g = (a :: v).take q
      · rw [if_pos hg] at hc ⊢
        omega
      · rw [if_neg hg] at hc ⊢
        omega
    calc Multiset.card (gramsM q (u ++ a :: v) - gramsM q (u ++ v))
        ≤ Multiset.card ((m2 : Multiset (List Char)) + {(a :: v).take q}) :=
          Multiset.card_le_card hle
      _ = m2.length + 1 := by simp
      _ ≤ q := by omega
  · -- insertion: s = u ++ v, t = u ++ a :: v
    rcases windows_decomp q hq (padding q ++ u) v with ⟨m1, he1, hl1⟩
    rcases windows_decomp q hq (padding q ++ u) (a :: v) with ⟨m2, he2, hl2⟩
    have hs : gramsM q (u ++ v) =
        (windows q ((padding q ++ u) ++ v) : Multiset (List Char)) := by
      rw [gramsM, List.append_assoc]
    have ht : gramsM q (u ++ a :: v) =
        (windows q ((padding q ++ u) ++ (a :: v)) : Multiset (List Char)) := by
      rw [gramsM, List.append_assoc]
    have hle : gramsM q (u ++ v) - gramsM q (u ++ a :: v) ≤ (m1 : Multiset (List Char)) := by
      rw [Multiset.le_iff_count]
      intro g
      rw [Multiset.count_sub, hs, ht, he2, he1]
      have hc := Multiset.count_le_of_le g (windows_le_cons q a v)
      simp only [Multiset.coe_count, List.count_append]
      simp only [Multiset.coe_count] at hc
      omega
    calc Multiset.card (gramsM q (u ++ v) - gramsM q (u ++ a :: v))
        ≤ Multiset.card (m1 : Multiset (List Char)) := Multiset.card_le_card hle
      _ = m1.length := by simp
      _ ≤ q := by omega
  · -- substitution: s = u ++ a :: v, t = u ++ b :: v
    rcases windows_decomp q hq (padding q ++ u) (a :: v) with ⟨m2, he2, hl2⟩
    rcases windows_decomp q hq (padding q ++ u) (b :: v) with ⟨m1, he1, hl1⟩
    have hs : gramsM q (u ++ a :: v) =
        (windows q ((padding q ++ u) ++ (a :: v)) : Multiset (List Char)) := by
      rw [gramsM, List.append_assoc]
    have ht : gramsM q (u ++ b :: v) =
        (windows q ((padding q ++ u) ++ (b :: v)) : Multiset (List Char)) := by
      rw [gramsM, List.append_assoc]
    have hle : gramsM q (u ++ a :: v) - gramsM q (u ++ b :: v) ≤
        (m2 : Multiset (List Char)) + {(a :: v).take q} := by
      rw [Multiset.le_iff_count]
      intro g
      rw [Multiset.count_sub, Multiset.count_add, hs, ht, he2, he1]
      have hca := Multiset.count_le_of_le g (windows_cons_le q a v)
      have hcb := Multiset.count_le_of_le g (windows_le_cons q b v)
      rw [Multiset.count_cons] at hca
      rw [Multiset.count_singleton]
      simp only [Multiset.coe_count, List.count_append] at hca hcb ⊢
      by_cases hg : g = (a :: v).take q
      · rw [if_pos hg] at hca ⊢
        omega
      · rw [if_neg hg] at hca ⊢
        omega
    calc Multiset.card (gramsM q (u ++ a :: v) - gramsM q (u ++ b :: v))
        ≤ Multiset.card ((m2 : Multiset (List Char)) + {(a :: v).take q}) :=
          Multiset.card_le_card hle
      _ = m2.length + 1 := by simp
      _ ≤ q := by omega

theorem reach_grams_bound {q : Nat} (hq : 1 ≤ q) {n : Nat} {s t : List Char}
    (h : Reach n s t) :
    Multiset.card (gramsM q s - gramsM q t) ≤ q * n := by
  induction h with
  | refl n x => simp
  | step e r ih =>
    rename_i m x y z
    have h1 := editStep_grams_bound (q := q) hq e
    have h2 : gramsM q x - gramsM q z ≤
        (gramsM q x - gramsM q y) + (gramsM q y - gramsM q z) := by
      rw [Multiset.le_iff_count]
      intro g
      simp only [Multiset.count_sub, Multiset.count_add]
      omega
    calc Multiset.card (gramsM q x - gramsM q z)
        ≤ Multiset.card ((gramsM q x - gramsM q y) + (gramsM q y - gramsM q z)) :=
          Multiset.card_le_card h2
      _ = Multiset.card (gramsM q x - gramsM q y) +
          Multiset.card (gramsM q y - gramsM q z) := Multiset.card_add _ _
      _ ≤ q + q * m := Nat.add_le_add h1 ih
      _ = q * (m + 1) := by ring

theorem card_gramsM (q : Nat) (hq : 1 ≤ q) (s : List Char) :
    Multiset.card (gramsM q s) = s.length := by
  rw [gramsM, Multiset.coe_card, windows_length]
  simp only [List.length_append, padding, List.length_replicate]
  omega

theorem gramsM_take_le (q : Nat) (y : List Char) (k : Nat) :
    gramsM q (y.take k) ≤ gramsM q y := by
  have h : windows q (padding q ++ y.take k) =
      (windows q (padding q ++ y)).take ((padding q ++ y.take k).length + 1 - q) := by
    have h0 := windows_take q (padding q ++ y.take k) (y.drop k)
    rw [List.append_assoc, List.take_append_drop] at h0
    exact h0.symm
  rw [gramsM, gramsM, h]
  exact Multiset.coe_le.mpr (List.take_sublist _ _).subperm

theorem comm_card_ge (q : Nat) (hq : 1 ≤ q) (x y : List Char) (d : Nat)
    (hped : pedTrue x y ≤ d) :
    x.length ≤ Multiset.card (gramsM q x ∩ gramsM q y) + q * d := by
  rcases (pedTrue_le_iff x y d).mp hped with ⟨k, hk, hed⟩
  have hreach : Reach d x (y.take k) := (reach_ed x (y.take k)).mono hed
  have h1 : Multiset.card (gramsM q x - gramsM q (y.take k)) ≤ q * d :=
    reach_grams_bound hq hreach
  have h2 : Multiset.card (gramsM q x ∩ gramsM q (y.take k)) ≤
      Multiset.card (gramsM q x ∩ gramsM q y) := by
    apply Multiset.card_le_card
    rw [Multiset.le_iff_count]
    intro g
    rw [Multiset.count_inter, Multiset.count_inter]
    have h3 := Multiset.count_le_of_le g (gramsM_take_le q y k)
    omega
  have h4 : gramsM q x ∩ gramsM q (y.take k) +
      (gramsM q x - gramsM q (y.take k)) = gramsM q x := by
    apply Multiset.ext'
    intro g
    rw [Multiset.count_add, Multiset.count_inter, Multiset.count_sub]
    omega
  have h5 : Multiset.card (gramsM q x ∩ gramsM q (y.take k)) +
      Multiset.card (gramsM q x - gramsM q (y.take k)) =
      Multiset.card (gramsM q x) := by
    rw [← Multiset.card_add, h4]
  have h6 : Multiset.card (gramsM q x) = x.length := card_gramsM q hq x
  omega

theorem coe_count_eq (g : List Char) (l : List (List Char)) :
    Multiset.count g (l : Multiset (List Char)) = l.count g := by
  induction l with
  | nil => simp
  | cons a l ih =>
    rw [← Multiset.cons_coe, Multiset.count_cons, List.count_cons, ih]
    by_cases h : g = a
    · rw [if_pos h, if_pos (by simp only [beq_iff_eq]; exact h.symm)]
    · rw [if_neg h, if_neg (by simp only [beq_iff_eq]; exact fun hh => h hh.symm)]

theorem card_inter_le_sum_count (ws : List (List Char)) :
    ∀ (gs : List (List Char)),
      Multiset.card ((gs : Multiset (List Char)) ∩ (ws : Multiset (List Char))) ≤
        (gs.map (fun g => ws.count g)).sum := by
  intro gs
  induction gs with
  | nil => simp
  | cons g gs ih =>
    rw [List.map_cons, List.sum_cons]
    by_cases hg : ws.count g = 0
    · have heq : ((g :: gs : List (List Char)) : Multiset (List Char)) ∩ (ws : Multiset _) =
          ((gs : List (List Char)) : Multiset (List Char)) ∩ (ws : Multiset _) := by
        apply Multiset.ext'
        intro a
        rw [Multiset.count_inter, Multiset.count_inter, ← Multiset.cons_coe,
          Multiset.count_cons, coe_count_eq a ws, coe_count_eq a gs]
        by_cases ha : a = g
        · rw [if_pos ha]
          rw [ha]
          omega
        · rw [if_neg ha]
          omega
      rw [heq]
      omega
    · have hle : ((g :: gs : List (List Char)) : Multiset (List Char)) ∩ (ws : Multiset _) ≤
          ((gs : List (List Char)) : Multiset (List Char)) ∩ (ws : Multiset _) + {g} := by
        rw [Multiset.le_iff_count]
        intro a
        rw [Multiset.count_add, Multiset.count_inter, Multiset.count_inter,
          ← Multiset.cons_coe, Multiset.count_cons, Multiset.count_singleton]
        by_cases ha : a = g
        · rw [if_pos ha]
          omega
        · rw [if_neg ha]
          omega
      have hcard := Multiset.card_le_card hle
      rw [Multiset.card_add, Multiset.card_singleton] at hcard
      omega

theorem commCount_ge (q : Nat) (hq : 1 ≤ q) (x y : List Char)
    (hx : normalize x = x) (hy : normalize y = y) (d : Nat)
    (hped : pedTrue x y ≤ d) :
    x.length ≤ commCount q x y + q * d := by
  have hgx : compute_qgrams q x = windows q (padding q ++ x) := by
    rw [compute_qgrams, hx]
  have hgy : compute_qgrams q y = windows q (padding q ++ y) := by
    rw [compute_qgrams, hy]
  have h1 := comm_card_ge q hq x y d hped
  have h2 := card_inter_le_sum_count (windows q (padding q ++ y)) (windows q (padding q ++ x))
  rw [commCount, hgx, hgy]
  rw [gramsM, gramsM] at h1
  have h3 : ((windows q (padding q ++ x)).map
      (fun g => (windows q (padding q ++ y)).count g)).sum =
      ((windows q (padding q ++ x)).map
        (fun g => List.count g (windows q (padding q ++ y)))).sum := rfl
  omega

end QGramIndex

namespace QGramIndex

/-! ### The build characterization: every inverted list is `entriesFor` -/

theorem updIL_append_optEntry (base : List (Nat × Nat)) (e c : Nat)
    (hbase : ∀ p ∈ base, p.1 < e) :
    updIL (base ++ optEntry e c) e = base ++ optEntry e (c + 1) := by
  by_cases hc : c = 0
  · subst hc
    rw [optEntry, if_pos rfl, List.append_nil, optEntry, if_neg (by omega)]
    rcases hb : base.getLast? with - | ⟨t, cc⟩
    · rw [List.getLast?_eq_none_iff.mp hb]
      rfl
    · have hlt : t < e := hbase (t, cc) (List.mem_of_getLast?_eq_some hb)
      simp only [updIL, hb]
      rw [if_pos (by omega)]
  · rw [optEntry, if_neg hc]
    simp only [updIL, List.getLast?_concat]
    rw [if_neg (by simp), List.dropLast_concat, optEntry, if_neg (by omega)]

theorem foldl_insertGram_lookupD (e : Nat)
    (ils₀ : List (List Char × List (Nat × Nat)))
    (htail : ∀ g p, p ∈ lookupD ils₀ g → p.1 < e) :
    ∀ (gs done : List (List Char)) (cur : List (List Char × List (Nat × Nat))),
      (∀ g, lookupD cur g = lookupD ils₀ g ++ optEntry e (done.count g)) →
      ∀ g, lookupD (gs.foldl (fun m g' => insertGram m e g') cur) g =
        lookupD ils₀ g ++ optEntry e ((done ++ gs).count g) := by
  intro gs
  induction gs with
  | nil =>
    intro done cur hcur g
    rw [List.foldl_nil, hcur g, List.append_nil]
  | cons g₀ gs ih =>
    intro done cur hcur g
    rw [List.foldl_cons]
    have hnext : ∀ g, lookupD (insertGram cur e g₀) g =
        lookupD ils₀ g ++ optEntry e ((done ++ [g₀]).count g) := by
      intro g
      by_cases hgg : g = g₀
      · subst hgg
        rw [insertGram_lookupD_self, hcur g]
        have hcnt : (done ++ [g]).count g = done.count g + 1 := by
          rw [List.count_append, List.count_singleton_self]
        rw [hcnt]
        exact updIL_append_optEntry _ e _ (htail g)
      · rw [insertGram_lookupD_ne _ _ _ _ hgg, hcur g]
        have hcnt : (done ++ [g₀]).count g = done.count g := by
          rw [List.count_append, List.count_singleton,
            if_neg (by simp only [beq_iff_eq]; exact fun hh => hgg hh.symm)]
          omega
        rw [hcnt]
    have hres := ih (done ++ [g₀]) _ hnext g
    rwa [List.append_assoc, List.singleton_append] at hres

theorem entriesFor_cons (q : Nat) (pe : Nat × Entity) (ents : List (Nat × Entity))
    (g : List Char) :
    entriesFor q (pe :: ents) g =
      optEntry pe.1 ((compute_qgrams q pe.2.n_name).count g) ++ entriesFor q ents g := by
  rw [entriesFor, List.flatMap_cons, entriesFor]

theorem entriesFor_append (q : Nat) (e1 e2 : List (Nat × Entity)) (g : List Char) :
    entriesFor q (e1 ++ e2) g = entriesFor q e1 g ++ entriesFor q e2 g := by
  rw [entriesFor, List.flatMap_append, entriesFor, entriesFor]

theorem entriesFor_single (q : Nat) (i : Nat) (ent : Entity) (g : List Char) :
    entriesFor q [(i, ent)] g = optEntry i ((compute_qgrams q ent.n_name).count g) := by
  rw [entriesFor_cons, entriesFor, List.flatMap_nil, List.append_nil]

theorem mem_entriesFor {q : Nat} {ents : List (Nat × Entity)} {g : List Char}
    {p : Nat × Nat} (hp : p ∈ entriesFor q ents g) :
    ∃ pe ∈ ents, p.1 = pe.1 ∧ p.2 = (compute_qgrams q pe.2.n_name).count g ∧ 1 ≤ p.2 := by
  rw [entriesFor] at hp
  rcases List.mem_flatMap.mp hp with ⟨pe, hpe, hmem⟩
  rw [optEntry] at hmem
  by_cases hc : (compute_qgrams q pe.2.n_name).count g = 0
  · rw [if_pos hc] at hmem
    cases hmem
  · rw [if_neg hc] at hmem
    rw [List.mem_singleton] at hmem
    subst hmem
    exact ⟨pe, hpe, rfl, rfl, by omega⟩

theorem freqSum_entriesFor_zero {q : Nat} {ents : List (Nat × Entity)} {g : List Char}
    {t : Nat} (ht : t ∉ ents.map Prod.fst) :
    freqSum t (entriesFor q ents g) = 0 := by
  apply freqSum_eq_zero
  intro hmem
  rcases List.mem_map.mp hmem with ⟨p, hp, rfl⟩
  rcases mem_entriesFor hp with ⟨pe, hpe, h1, -, -⟩
  exact ht (h1 ▸ List.mem_map_of_mem Prod.fst hpe)

theorem freqSum_entriesFor (q : Nat) :
    ∀ {ents : List (Nat × Entity)}, (ents.map Prod.fst).Nodup →
      ∀ {t : Nat} {ent : Entity}, (t, ent) ∈ ents →
      ∀ g, freqSum t (entriesFor q ents g) = (compute_qgrams q ent.n_name).count g := by
  intro ents
  induction ents with
  | nil => intro _ t ent h; cases h
  | cons pe ents ih =>
    intro hnd t ent hmem g
    simp only [List.map_cons, List.nodup_cons] at hnd
    rw [entriesFor_cons, freqSum_append]
    rcases List.mem_cons.mp hmem with heq | hmem'
    · have hpe : pe = (t, ent) := heq.symm
      subst hpe
      have h2 : freqSum t (entriesFor q ents g) = 0 :=
        freqSum_entriesFor_zero hnd.1
      rw [h2, Nat.add_zero, optEntry]
      by_cases hc : (compute_qgrams q (t, ent).2.n_name).count g = 0
      · rw [if_pos hc, freqSum_nil, hc]
      · rw [if_neg hc, freqSum_cons, if_pos rfl, freqSum_nil]
        rfl
    · have hne : pe.1 ≠ t := by
        intro hp
        exact hnd.1 (hp ▸ List.mem_map_of_mem Prod.fst hmem')
      have h1 : freqSum t (optEntry pe.1 ((compute_qgrams q pe.2.n_name).count g)) = 0 := by
        rw [optEntry]
        by_cases hc : (compute_qgrams q pe.2.n_name).count g = 0
        · rw [if_pos hc, freqSum_nil]
        · rw [if_neg hc, freqSum_cons, if_neg hne, freqSum_nil]
      rw [h1, ih hnd.2 hmem' g, Nat.zero_add]

theorem StInv_init (q : Nat) : StInv q ⟨0, [], []⟩ :=
  ⟨rfl, by simp, fun _ => rfl⟩

theorem StInv_buildLine {q : Nat} {st : St} {line : List Char} {st' : St}
    (h : buildLine q st line = .ok st') (hinv : StInv q st) : StInv q st' := by
  rcases buildLine_shape h with rfl | ⟨nm, sc, ds, u, wid, sy, im, -, rfl⟩
  · exact hinv
  · rcases hinv with ⟨hids, hnorm, hchar⟩
    refine ⟨?_, ?_, ?_⟩
    · show (st.entities ++ [(st.eid + 1, _)]).map Prod.fst = List.range' 1 (st.eid + 1)
      rw [List.map_append, hids, List.range'_1_concat]
      rw [List.map_cons, List.map_nil]
      rw [show 1 + st.eid = st.eid + 1 from by omega]
    · intro pe hpe
      rcases List.mem_append.mp hpe with h' | h'
      · exact hnorm pe h'
      · rw [List.mem_singleton] at h'
        subst h'
        exact normalize_idem nm
    · intro g
      have htail : ∀ g p, p ∈ lookupD st.inverted_lists g → p.1 < st.eid + 1 := by
        intro g p hp
        rw [hchar g] at hp
        rcases mem_entriesFor hp with ⟨pe, hpe, h1, -, -⟩
        have hm : pe.1 ∈ List.range' 1 st.eid :=
          hids ▸ List.mem_map_of_mem Prod.fst hpe
        rw [List.mem_range'_1] at hm
        omega
      have hfold := foldl_insertGram_lookupD (st.eid + 1) st.inverted_lists htail
        (compute_qgrams q (normalize nm)) [] st.inverted_lists
        (fun g => by rw [List.count_nil, optEntry, if_pos rfl, List.append_nil]) g
      show lookupD ((compute_qgrams q (normalize nm)).foldl
          (fun m g' => insertGram m (st.eid + 1) g') st.inverted_lists) g = _
      rw [hfold, List.nil_append, entriesFor_append, entriesFor_single, hchar g]

theorem StInv_build (q : Nat) :
    ∀ (recs : List (List Char)) (st₀ st : St),
      recs.foldlM (buildLine q) st₀ = .ok st → StInv q st₀ → StInv q st := by
  intro recs
  induction recs with
  | nil =>
    intro st₀ st h hinv
    cases h
    exact hinv
  | cons r recs ih =>
    intro st₀ st h hinv
    rcases foldlM_build_cons h with ⟨st₁, h1, h2⟩
    exact ih st₁ st h2 (StInv_buildLine h1 hinv)

theorem StInv_build_file {q : Nat} {lines : List (List Char)} {st : St}
    (h : build_from_file q lines = .ok st) : QGramIndex.StInv q st := by
  rcases lines with - | ⟨hd, recs⟩
  · cases h
  · exact StInv_build q recs ⟨0, [], []⟩ st h (StInv_init q)

theorem entLookup_some_of_mem {ents : List (Nat × Entity)}
    (hnd : (ents.map Prod.fst).Nodup) :
    ∀ {t : Nat} {ent : Entity}, (t, ent) ∈ ents → entLookup ents t = some ent := by
  induction ents with
  | nil => intro t ent h; cases h
  | cons pe ents ih =>
    intro t ent h
    rcases pe with ⟨k, e'⟩
    simp only [List.map_cons, List.nodup_cons] at hnd
    rcases List.mem_cons.mp h with heq | hmem
    · have : (k, e') = (t, ent) := heq.symm
      cases this
      rw [entLookup, if_pos rfl]
    · have hne : k ≠ t := by
        intro hp
        exact hnd.1 (hp ▸ List.mem_map_of_mem Prod.fst hmem)
      rw [entLookup, if_neg hne]
      exact ih hnd.2 hmem

theorem entLookup_mem : ∀ {ents : List (Nat × Entity)} {t : Nat} {ent : Entity},
    entLookup ents t = some ent → (t, ent) ∈ ents := by
  intro ents
  induction ents with
  | nil => intro t ent h; cases h
  | cons pe ents ih =>
    intro t ent h
    rcases pe with ⟨k, e'⟩
    rw [entLookup] at h
    by_cases hk : k = t
    · rw [if_pos hk] at h
      cases h
      subst hk
      exact List.mem_cons_self _ _
    · rw [if_neg hk] at h
      exact List.mem_cons_of_mem _ (ih h)

theorem entLookup_isSome : ∀ {ents : List (Nat × Entity)} {t : Nat},
    t ∈ ents.map Prod.fst → ∃ ent, entLookup ents t = some ent := by
  intro ents
  induction ents with
  | nil => intro t h; cases h
  | cons pe ents ih =>
    intro t h
    rcases pe with ⟨k, e'⟩
    by_cases hk : k = t
    · exact ⟨e', by rw [entLookup, if_pos hk]⟩
    · rw [entLookup, if_neg hk]
      apply ih
      simp only [List.map_cons, List.mem_cons] at h
      rcases h with h | h
      · exact absurd h.symm hk
      · exact h

end QGramIndex

namespace QGramIndex

/-! ### `find_matches` against the brute-force PED verification (C1) -/

theorem fetchLists_fst (gs : List (List Char)) :
    ∀ (m : List (List Char × List (Nat × Nat))),
      (fetchLists m gs).1 = gs.map (fun g => lookupD m g) := by
  induction gs with
  | nil => intro m; rfl
  | cons g gs ih =>
    intro m
    show (ddGet m g).1 :: (fetchLists (ddGet m g).2 gs).1 = _
    rw [ddGet_fst, ih, List.map_cons]
    congr 1
    apply List.map_congr_left
    intro g' _
    exact lookupD_ddGet_snd m g g'

theorem freqSum_flatten (t : Nat) : ∀ (L : List (List (Nat × Nat))),
    freqSum t L.flatten = (L.map (freqSum t)).sum := by
  intro L
  induction L with
  | nil => rfl
  | cons l L ih =>
    rw [List.flatten_cons, freqSum_append, List.map_cons, List.sum_cons, ih]

theorem freqSum_ge_of_mem : ∀ {l : List (Nat × Nat)} {p : Nat × Nat},
    p ∈ l → p.2 ≤ freqSum p.1 l := by
  intro l
  induction l with
  | nil => intro p h; cases h
  | cons a l ih =>
    intro p h
    rw [freqSum_cons]
    rcases List.mem_cons.mp h with rfl | h
    · rw [if_pos rfl]
      omega
    · have := ih h
      by_cases hp : a.1 = p.1
      · rw [if_pos hp]
        omega
      · rw [if_neg hp]
        omega

theorem mem_fst_of_freqSum_pos {l : List (Nat × Nat)} {t : Nat}
    (h : 1 ≤ freqSum t l) : t ∈ l.map Prod.fst := by
  by_contra hne
  rw [freqSum_eq_zero t hne] at h
  omega

theorem merge_lists_mem_iff (lists : List (List (Nat × Nat))) (t : Nat) :
    t ∈ (merge_lists lists).map Prod.fst ↔ t ∈ lists.flatten.map Prod.fst := by
  have hperm : List.Perm (merge_lists lists) (accumFreq lists.flatten) :=
    isort_perm _ _
  rw [(hperm.map Prod.fst).mem_iff, accumFreq_mem]

theorem merge_lists_val {lists : List (List (Nat × Nat))} {p : Nat × Nat}
    (hp : p ∈ merge_lists lists) : p.2 = freqSum p.1 lists.flatten := by
  have hperm : List.Perm (merge_lists lists) (accumFreq lists.flatten) :=
    isort_perm _ _
  have hm : p ∈ accumFreq lists.flatten := hperm.mem_iff.mp hp
  have hv := freqSum_of_mem_nodup (accumFreq_nodup lists.flatten)
    (t := p.1) (c := p.2) (by simpa using hm)
  rw [← hv, accumFreq_freqSum]

theorem merged_freq_eq {q : Nat} {st : St} (hinv : StInv q st) {t : Nat} {ent : Entity}
    (hent : entLookup st.entities t = some ent) (gs : List (List Char)) :
    freqSum t ((gs.map (fun g => lookupD st.inverted_lists g)).flatten) =
      (gs.map (fun g => (compute_qgrams q ent.n_name).count g)).sum := by
  rw [freqSum_flatten, List.map_map]
  congr 1
  apply List.map_congr_left
  intro g _
  show freqSum t (lookupD st.inverted_lists g) = _
  have hnd : (st.entities.map Prod.fst).Nodup := by
    rw [hinv.1]
    exact List.nodup_range' _ _
  rw [hinv.2.2 g]
  exact freqSum_entriesFor q hnd (entLookup_mem hent) g

theorem find_matches_mem_iff {q : Nat} {st : St} {x : List Char} {δ : Int} {t : Nat} :
    t ∈ (find_matches q st x δ).1.map (fun m => m.1) ↔
      ∃ c : Nat,
        (t, c) ∈ merge_lists ((compute_qgrams q x).map
          (fun g => lookupD st.inverted_lists g)) ∧
        (x.length : Int) - (q : Int) * δ ≤ (c : Int) ∧
        pedBounded x (entity_n_name st t) δ ≤ δ := by
  simp only [find_matches, fetchLists_fst]
  constructor
  · intro h
    rcases List.mem_map.mp h with ⟨m, hm, rfl⟩
    rcases List.mem_filterMap.mp hm with ⟨p, hp, hf⟩
    by_cases hped : pedBounded x (entity_n_name st p.1) δ ≤ δ
    · rw [if_pos hped] at hf
      cases hf
      rcases List.mem_filter.mp hp with ⟨hpl, hcond⟩
      refine ⟨p.2, by simpa using hpl, ?_, hped⟩
      exact of_decide_eq_true hcond
    · rw [if_neg hped] at hf
      cases hf
  · rintro ⟨c, hmem, hcond, hped⟩
    apply List.mem_map.mpr
    refine ⟨(t, pedBounded x (entity_n_name st t) δ, pyInt (entity_score st t)),
      ?_, rfl⟩
    apply List.mem_filterMap.mpr
    refine ⟨(t, c), List.mem_filter.mpr ⟨hmem, decide_eq_true hcond⟩, ?_⟩
    rw [if_pos hped]

/-- C1 as amended: on every built index, for every normalized prefix `x`
and every `delta ≥ 0`, the ids emitted by `find_matches` are exactly the
entity ids whose stored normalized name has true prefix edit distance at
most `delta` to `x` AND which share at least one q-gram occurrence with
`x` (`commCount ≥ 1`); entities sharing no q-gram never enter the merged
candidate list, which is what the counterexample exhibits.  Moreover,
whenever the pruning threshold `len(x) - q*delta` is at least 1 — in
particular for every query the interactive callers issue with their
`delta = len(x)//4` policy and `q = 3` — the extra condition is implied
by the q-gram corruption bound, and the emitted set equals the full
brute-force set. -/
theorem claim_C1 (q : Nat) (lines : List (List Char)) (st : St) (x : List Char)
    (δ : Int) (hq : 1 ≤ q) (hb : build_from_file q lines = .ok st)
    (hx : normalize x = x) (hδ : 0 ≤ δ) :
    (∀ t : Nat,
      t ∈ (find_matches q st x δ).1.map (fun m => m.1) ↔
      ∃ ent, entLookup st.entities t = some ent ∧
        (pedTrue x ent.n_name : Int) ≤ δ ∧ 1 ≤ commCount q x ent.n_name) ∧
    (1 ≤ (x.length : Int) - (q : Int) * δ →
      ∀ t : Nat,
        t ∈ (find_matches q st x δ).1.map (fun m => m.1) ↔
        ∃ ent, entLookup st.entities t = some ent ∧
          (pedTrue x ent.n_name : Int) ≤ δ) := by
  have hinv : StInv q st := StInv_build_file hb
  have hnd : (st.entities.map Prod.fst).Nodup := by
    rw [hinv.1]
    exact List.nodup_range' _ _
  have hmain : ∀ t : Nat,
      t ∈ (find_matches q st x δ).1.map (fun m => m.1) ↔
      ∃ ent, entLookup st.entities t = some ent ∧
        (pedTrue x ent.n_name : Int) ≤ δ ∧ 1 ≤ commCount q x ent.n_name := by
    intro t
    rw [find_matches_mem_iff]
    constructor
    · rintro ⟨c, hmem, hthr, hped⟩
      have htm : t ∈ ((compute_qgrams q x).map
          (fun g => lookupD st.inverted_lists g)).flatten.map Prod.fst := by
        rw [← merge_lists_mem_iff]
        exact List.mem_map_of_mem Prod.fst hmem
      rcases List.mem_map.mp htm with ⟨p, hpflat, hpt⟩
      rcases List.mem_flatten.mp hpflat with ⟨l, hl, hpl⟩
      rcases List.mem_map.mp hl with ⟨g, hg, rfl⟩
      have hpe := hinv.2.2 g ▸ hpl
      rcases mem_entriesFor hpe with ⟨pe, hpe2, hp1, -, hfreq⟩
      have hent : entLookup st.entities t = some pe.2 := by
        rw [← hpt, hp1]
        exact entLookup_some_of_mem hnd (by simpa using hpe2)
      refine ⟨pe.2, hent, ?_, ?_⟩
      · have henn : entity_n_name st t = pe.2.n_name := by
          rw [entity_n_name, hent]
          rfl
        rw [henn] at hped
        rw [← pedBounded_le_iff x pe.2.n_name δ]
        exact hped
      · have h1 : 1 ≤ freqSum t (((compute_qgrams q x).map
            (fun g => lookupD st.inverted_lists g)).flatten) := by
          have := freqSum_ge_of_mem hpl
          have h2 : p ∈ ((compute_qgrams q x).map
              (fun g => lookupD st.inverted_lists g)).flatten :=
            List.mem_flatten.mpr ⟨_, List.mem_map_of_mem _ hg, hpl⟩
          have h3 := freqSum_ge_of_mem h2
          rw [hpt] at h3
          omega
        rw [merged_freq_eq hinv hent] at h1
        exact h1
    · rintro ⟨ent, hent, hpedT, hcomm⟩
      have hy : normalize ent.n_name = ent.n_name :=
        hinv.2.1 (t, ent) (entLookup_mem hent)
      have hflat : freqSum t (((compute_qgrams q x).map
          (fun g => lookupD st.inverted_lists g)).flatten) =
          commCount q x ent.n_name := merged_freq_eq hinv hent _
      have htm : t ∈ ((compute_qgrams q x).map
          (fun g => lookupD st.inverted_lists g)).flatten.map Prod.fst :=
        mem_fst_of_freqSum_pos (by omega)
      rw [← merge_lists_mem_iff] at htm
      rcases List.mem_map.mp htm with ⟨m, hm, hmt⟩
      have hmp : m = (t, m.2) := by
        rw [← hmt]
      have hval : m.2 = commCount q x ent.n_name := by
        rw [merge_lists_val hm, hmt, hflat]
      have hthr : (x.length : Int) - (q : Int) * δ ≤ (m.2 : Int) := by
        have hped2 : pedTrue x ent.n_name ≤ δ.toNat := by omega
        have hcc := commCount_ge q hq x ent.n_name hx hy δ.toNat hped2
        have hccInt : (x.length : Int) ≤
            (commCount q x ent.n_name : Int) + (q : Int) * δ := by
          have ht2 : ((δ.toNat : Nat) : Int) = δ := Int.toNat_of_nonneg hδ
          rw [← ht2]
          exact_mod_cast hcc
        rw [hval]
        omega
      refine ⟨m.2, hmp ▸ hm, hthr, ?_⟩
      have henn : entity_n_name st t = ent.n_name := by
        rw [entity_n_name, hent]
        rfl
      rw [henn, pedBounded_le_iff]
      exact hpedT
  refine ⟨hmain, ?_⟩
  intro hthr t
  rw [hmain t]
  constructor
  · rintro ⟨ent, hent, hped, -⟩
    exact ⟨ent, hent, hped⟩
  · rintro ⟨ent, hent, hped⟩
    refine ⟨ent, hent, hped, ?_⟩
    have hy : normalize ent.n_name = ent.n_name :=
      hinv.2.1 (t, ent) (entLookup_mem hent)
    have hped2 : pedTrue x ent.n_name ≤ δ.toNat := by omega
    have hcc := commCount_ge q hq x ent.n_name hx hy δ.toNat hped2
    have hccInt : (x.length : Int) ≤
        (commCount q x ent.n_name : Int) + (q : Int) * δ := by
      have ht2 : ((δ.toNat : Nat) : Int) = δ := Int.toNat_of_nonneg hδ
      rw [← ht2]
      exact_mod_cast hcc
    have h1 : (1 : Int) ≤ (commCount q x ent.n_name : Int) := by omega
    exact_mod_cast h1

end QGramIndex

namespace QGramIndex

/-- C1 counterexample: on the index built from `c1Lines` (one entity, with
normalized name "b"), the query `find_matches "a" 1` emits no entity id,
yet entity 1 is stored, normalized, and has true prefix edit distance
1 ≤ delta to the normalized prefix "a".  The entity shares no q-gram with
the prefix, so it never enters the merged candidate list: the emitted set
differs from the brute-force set, refuting the claimed equality. -/
theorem claim_C1_counterexample :
    (build_from_file 3 c1Lines).toOption = some c1St ∧
    normalize ("a".data) = "a".data ∧
    (find_matches 3 c1St ("a".data) 1).1 = [] ∧
    entity_n_name c1St 1 = "b".data ∧
    c1St.entities.map Prod.fst = [1] ∧
    pedTrue ("a".data) ("b".data) ≤ 1 :=
  ⟨by decide, by decide, by decide, by decide, by decide, by decide⟩

/-- Witness for `claim_C1` on the index built from `c2Lines` with the
normalized prefix "frei" and `delta = 0`. -/
theorem claim_C1_witness :
    1 ≤ 3 ∧ build_from_file 3 c2Lines = .ok c2St ∧
    normalize ("frei".data) = "frei".data ∧ (0 : Int) ≤ 0 ∧
    ((∀ t : Nat,
      t ∈ (find_matches 3 c2St ("frei".data) 0).1.map (fun m => m.1) ↔
      ∃ ent, entLookup c2St.entities t = some ent ∧
        (pedTrue ("frei".data) ent.n_name : Int) ≤ 0 ∧
        1 ≤ commCount 3 ("frei".data) ent.n_name) ∧
    (1 ≤ (("frei".data).length : Int) - (3 : Int) * 0 →
      ∀ t : Nat,
        t ∈ (find_matches 3 c2St ("frei".data) 0).1.map (fun m => m.1) ↔
        ∃ ent, entLookup c2St.entities t = some ent ∧
          (pedTrue ("frei".data) ent.n_name : Int) ≤ 0)) :=
  ⟨by decide, rfl, by decide, by decide,
    claim_C1 3 c2Lines c2St ("frei".data) 0 (by decide) rfl (by decide) (by decide)⟩

end QGramIndex
